import Mathlib

/-!
Verification development for the itsg33-web-app repository.

The TypeScript/JavaScript sources (the Cloudflare worker `apps/api/src/*.ts`,
the extraction scripts `scripts/extract-annex-3a.mjs`,
`scripts/extract-annex-3a-html.mjs`, and the reporting script
`scripts/export-assignments-csv.mjs`) are shallowly embedded below.
Strings are modelled as Lean `String`/`List Char`; the small JavaScript
regular expressions used by the code are compiled by hand into executable
character-list scanners that mirror the regex semantics on the ASCII inputs
the pipeline processes.  JavaScript `undefined`/`null` distinctions that the
code observes are modelled explicitly; optional record fields become
`Option`.
-/

namespace ITSG33

/-! ### Character classes used by the JavaScript regexes -/

/-- JS `\s` for the ASCII whitespace the pipeline encounters. -/
def isWsChar (c : Char) : Bool :=
  c == ' ' || c == '\t' || c == '\n' || c == '\r'

/-- JS `\w` (word character): ASCII letters, digits, underscore. -/
def isWordChar (c : Char) : Bool :=
  c.isAlpha || c.isDigit || c == '_'

/-- Lowercase of a string, char by char (JS `toLowerCase` on ASCII). -/
def jsToLower (s : String) : String :=
  String.mk (s.toList.map Char.toLower)

/-- Uppercase of a string, char by char (JS `toUpperCase` on ASCII). -/
def jsToUpper (s : String) : String :=
  String.mk (s.toList.map Char.toUpper)

/-- Does `cs` start with the (lowercase) pattern `pat`, case-insensitively? -/
def leadMatchesCI : List Char → List Char → Bool
  | [], _ => true
  | _ :: _, [] => false
  | p :: ps, c :: cs => p == c.toLower && leadMatchesCI ps cs

/-- Strip a (lowercase) pattern from the head of `cs` case-insensitively,
returning the remainder on success. -/
def stripCI : List Char → List Char → Option (List Char)
  | [], cs => some cs
  | _ :: _, [] => none
  | p :: ps, c :: cs => if p == c.toLower then stripCI ps cs else none

/-- Does `cs` start with exactly the pattern `pat`? -/
def leadMatches : List Char → List Char → Bool
  | [], _ => true
  | _ :: _, [] => false
  | p :: ps, c :: cs => p == c && leadMatches ps cs

/-- Substring test on character lists (JS `String.prototype.includes`). -/
def hasSubList (pat : List Char) : List Char → Bool
  | [] => pat.isEmpty
  | c :: cs => leadMatches pat (c :: cs) || hasSubList pat cs

/-- Substring test on strings (JS `includes`). -/
def strHas (hay pat : String) : Bool :=
  hasSubList pat.toList hay.toList

/-- Trim of JS-style whitespace from both ends (JS `trim` on ASCII input). -/
def trimList (cs : List Char) : List Char :=
  ((cs.dropWhile isWsChar).reverse.dropWhile isWsChar).reverse

/-- JS `s.trim()`. -/
def jsTrim (s : String) : String :=
  String.mk (trimList s.toList)

/-- Collapse every run of whitespace to one space
(JS `replace(/\s+/g, " ")`).  Fuel-driven so it reduces in the kernel. -/
def collapseWsAux : Nat → List Char → List Char
  | 0, _ => []
  | _ + 1, [] => []
  | fuel + 1, c :: cs =>
    if isWsChar c then ' ' :: collapseWsAux fuel (cs.dropWhile isWsChar)
    else c :: collapseWsAux fuel cs

def collapseWs (cs : List Char) : List Char :=
  collapseWsAux (cs.length + 1) cs

/-- JS `replace(/\s+/g, " ").trim()` (`normalizeSpaces` in the CSV script,
also used when repairing wrapped PDF headings). -/
def squashWs (s : String) : String :=
  String.mk (trimList (collapseWs s.toList))

/-- First-seen-order deduplication: `Array.from(new Set(xs))` in JS keeps the
first occurrence of each element, in order. -/
def dedupSeen (seen : List String) : List String → List String
  | [] => []
  | x :: xs => if seen.contains x then dedupSeen seen xs
               else x :: dedupSeen (x :: seen) xs

def dedupFirstSeen (l : List String) : List String :=
  dedupSeen [] l

/-! ### The control-ID token scanner

Both extractors and the chat endpoint scan text for control-ID tokens with
`\b([A-Z]{2})\s*-\s*(\d{1,3})\b` (the PDF extractor, `allowSpace := true`)
or `\b([A-Z]{2})-(\d{1,3})\b` (the HTML extractor and `rag.ts`,
`allowSpace := false`).  `matchIdAt` decides whether one match starts at the
head of `cs`, given the previous character (for the leading `\b`); the
trailing `\b` is checked against the character after the digits.  The
normalized ID `XX-N` is exactly what `normalizeControlId` in the scripts
builds from the two capture groups. -/

def boundaryBefore : Option Char → Bool
  | none => true
  | some c => !isWordChar c

/-- Trailing `\b` after the digits: the next character must be absent or a
non-word character. -/
def tailBoundaryOk : List Char → Bool
  | [] => true
  | d :: _ => !isWordChar d

/-- The tail of one ID match: the two letters are in hand and `r3` is the
text after the hyphen (and, in spaced mode, after the whitespace); the
digit run must have length 1 to 3 and satisfy the trailing `\b`. -/
def idTail (c1 c2 : Char) (r3 : List Char) : Option (String × Char × List Char) :=
  let ds := r3.takeWhile Char.isDigit
  let r4 := r3.dropWhile Char.isDigit
  if c1.isUpper && c2.isUpper && 1 ≤ ds.length && ds.length ≤ 3 && tailBoundaryOk r4 then
    some (String.mk (c1 :: c2 :: '-' :: ds), ds.getLastD '0', r4)
  else none

/-- After the two letters: expect the hyphen (in spaced mode after optional
whitespace), then hand over to `idTail`. -/
def afterLetters (allowSpace : Bool) (c1 c2 : Char) :
    List Char → Option (String × Char × List Char)
  | '-' :: r2 => idTail c1 c2 (if allowSpace then r2.dropWhile isWsChar else r2)
  | _ => none

def matchIdAt (allowSpace : Bool) (prev : Option Char) (cs : List Char) :
    Option (String × Char × List Char) :=
  if boundaryBefore prev then
    match cs with
    | c1 :: c2 :: rest =>
      afterLetters allowSpace c1 c2 (if allowSpace then rest.dropWhile isWsChar else rest)
    | _ => none
  else none

/-- Repeated `exec` of the global control-ID regex: successive leftmost,
non-overlapping matches.  `prev` is the character before the current scan
position (for `\b`). -/
def scanIdsAux (allowSpace : Bool) : Nat → Option Char → List Char → List String
  | 0, _, _ => []
  | _ + 1, _, [] => []
  | fuel + 1, prev, c :: cs =>
    match matchIdAt allowSpace prev (c :: cs) with
    | some (id, lastC, rest) => id :: scanIdsAux allowSpace fuel (some lastC) rest
    | none => scanIdsAux allowSpace fuel (some c) cs

def scanIds (allowSpace : Bool) (cs : List Char) : List String :=
  scanIdsAux allowSpace (cs.length + 1) none cs

/-- Canonical `XX-N` shape of a normalized control ID: two uppercase letters,
a hyphen, one to three digits. -/
def isCanonicalId (s : String) : Bool :=
  match s.toList with
  | c1 :: c2 :: '-' :: ds =>
    c1.isUpper && c2.isUpper && !ds.isEmpty && ds.length ≤ 3 && ds.all Char.isDigit
  | _ => false

/-! ### rag.ts -/

structure ControlIndexItem where
  control_id : String
  control_name : String
  family_id : String
  aliases : Option (List String)
  keywords : Option (List String)
deriving DecidableEq

/-- Embeds `tokenize` from rag.ts: lowercase, split on `[^a-z0-9]+`, drop empties.
The tokens are exactly the maximal runs of `[a-z0-9]` characters. -/
def isTokChar (c : Char) : Bool :=
  c.isLower || c.isDigit

def tokenizeAux : Nat → List Char → List String
  | 0, _ => []
  | _ + 1, [] => []
  | fuel + 1, c :: cs =>
    if isTokChar c then
      String.mk (c :: cs.takeWhile isTokChar) :: tokenizeAux fuel (cs.dropWhile isTokChar)
    else tokenizeAux fuel cs

def tokenize (s : String) : List String :=
  tokenizeAux ((jsToLower s).toList.length + 1) (jsToLower s).toList

/-- Embeds `normalizeControlId` from rag.ts: `id.trim().toUpperCase()`. -/
def normalizeControlIdRag (id : String) : String :=
  jsToUpper (jsTrim id)

/-- Embeds `extractControlIds` from rag.ts: uppercase the text, scan for
`\b[A-Z]{2}-\d{1,3}\b`, deduplicate keeping first-seen order. -/
def extractControlIds (text : String) : List String :=
  dedupFirstSeen (scanIds false (jsToUpper text).toList)

/-- Embeds `scoreControl` from rag.ts: +3 per term that occurs as a substring of the
lowercased question, +1 per occurrence of a term token in the question's
token set. -/
def scoreControl (question : String) (tokens : List String)
    (item : ControlIndexItem) : Nat :=
  let haystack := jsToLower question
  let terms := ([item.control_id, item.control_name] ++ item.aliases.getD []
                ++ item.keywords.getD []).filter (fun t => !t.isEmpty)
  terms.foldl (fun score term =>
    let termLower := jsToLower term
    let score1 := if !termLower.isEmpty && strHas haystack termLower
                  then score + 3 else score
    score1 + ((tokenize termLower).filter (fun tok => tokens.contains tok)).length) 0

/-- Lookup in a JS `Map` built from a pair list: later pairs with the same
key overwrite earlier ones, so lookup returns the value of the last pair. -/
def jsMapGet {β : Type} (pairs : List (String × β)) (k : String) : Option β :=
  match pairs.reverse.find? (fun p => p.1 == k) with
  | some p => some p.2
  | none => none

/-- The `canonical` map of `selectControlIds`: uppercased id to canonical id,
one pair per index entry. -/
def canonicalPairs (index : List ControlIndexItem) : List (String × String) :=
  index.map (fun item => (jsToUpper item.control_id, item.control_id))

/-- The `add` closure of `selectControlIds`: normalize, resolve against the
canonical map, push if known and not already chosen. -/
def addChosen (canonical : List (String × String)) (chosen : List String)
    (id : String) : List String :=
  match jsMapGet canonical (normalizeControlIdRag id) with
  | some canonicalId =>
    if chosen.contains canonicalId then chosen else chosen ++ [canonicalId]
  | none => chosen

/-- Step 1 of `selectControlIds`: caller-supplied IDs.  `controlIds?.length`
is falsy both for `undefined` and for `[]`. -/
def phaseA (controlIds : Option (List String)) (index : List ControlIndexItem) :
    List String :=
  match controlIds with
  | some ids => if ids.isEmpty then [] else ids.foldl (addChosen (canonicalPairs index)) []
  | none => []

/-- Step 2 of `selectControlIds`: IDs embedded in the question text. -/
def phaseB (question : String) (index : List ControlIndexItem) : List String :=
  (extractControlIds question).foldl (addChosen (canonicalPairs index)) []

/-- Step 3 of `selectControlIds`: lexical scoring.  Positive-scoring entries,
sorted by descending score (JS `sort` is stable), truncated to `limit`. -/
def phaseC (question : String) (index : List ControlIndexItem) (limit : Nat) :
    List String :=
  let tokens := tokenize question
  let scored := (index.map (fun item => (item, scoreControl question tokens item))).filter
      (fun p => decide (0 < p.2))
  let sorted := scored.mergeSort (fun a b => decide (b.2 ≤ a.2))
  (sorted.take limit).map (fun p => p.1.control_id)

/-- Embeds `selectControlIds` from rag.ts.  The source defaults `limit` to 6. -/
def selectControlIds (question : String) (controlIds : Option (List String))
    (index : List ControlIndexItem) (limit : Nat) : List String :=
  let a := phaseA controlIds index
  if !a.isEmpty then a else
  let b := phaseB question index
  if !b.isEmpty then b else
  phaseC question index limit

/-! ### Control selection in the chat handler (index.ts)

`handleChat` builds `ChatRequest` from the request body.  The declared type
has the field `control_ids`, but the handler calls
`selectControlIds(payload.question, payload.controlIds, index)`: the property
`controlIds` is not a field of the payload, so in JavaScript it evaluates to
`undefined`.  The embedding passes `none` accordingly. -/

structure ChatRequest where
  question : String
  control_ids : List String
deriving DecidableEq

def handleChatSelectedControls (payload : ChatRequest)
    (index : List ControlIndexItem) : List String :=
  selectControlIds payload.question none index 6

/-! ### The shared data model of the extractors (ControlRecord) -/

structure Subpart where
  id : String
  text : String
deriving DecidableEq

structure StatementPart where
  id : String
  text : String
  subparts : List Subpart
deriving DecidableEq

structure Enhancement where
  enhancement_id : String
  title : Option String
  statement : String
  supplemental_guidance : Option String
deriving DecidableEq

structure ControlRecord where
  control_id : String
  control_name : String
  family_id : String
  statement : Option String
  statement_parts : Option (List StatementPart)
  supplemental_guidance : Option String
  enhancements : Option (List Enhancement)
  related_controls : Option (List String)
  references : Option (List String)
  raw_text : Option (List String)
  source_url : Option String
  source_type : Option String
deriving DecidableEq

/-! ### r2.ts and the read-side handlers of index.ts

`getJson` in r2.ts reads

```
const obj = await bucket.get(key);
if (!obj) {
    return null;
    try {
        return JSON.parse(await obj.text()) as T;
    } catch (err) {
        console.error("Failed to parse JSON from R2", key, err);
        return null;
    }
}
```

The `try` block sits after an unconditional `return null` inside the
`if (!obj)` branch, so it is dead code; when the object exists, control
falls off the end of the function and the call evaluates to `undefined`.
The bucket is modelled as a partial map from keys to stored bytes, and the
JSON parser as a partial map from bytes to values; neither is ever consulted
past the existence check, exactly as in the source. -/

inductive JsValue (α : Type) where
  | jsNull : JsValue α
  | jsUndefined : JsValue α
  | value (a : α) : JsValue α
deriving DecidableEq

def getJson {α : Type} (bucket : String → Option String)
    (parse : String → Option α) (key : String) : JsValue α :=
  match bucket key with
  | none => JsValue.jsNull
  | some _bytes => JsValue.jsUndefined

/-- Embeds `joinKey` from index.ts: strip trailing slashes from the prefix and
leading slashes from the path, join with a slash when the prefix is
non-empty. -/
def joinKey (pfx : String) (path : String) : String :=
  let cleanPfx := String.mk ((pfx.toList.reverse.dropWhile (fun c => c == '/')).reverse)
  let cleanPath := String.mk (path.toList.dropWhile (fun c => c == '/'))
  if cleanPfx.isEmpty then cleanPath else cleanPfx ++ "/" ++ cleanPath

/-- Extraction by the router of the control id from the URL path:
`path.replace("/api/controls/", "").trim()`.  The route is only taken for
paths that start with the prefix, where `replace` of the first occurrence
strips it. -/
def routeControlId (path : String) : String :=
  if leadMatches "/api/controls/".toList path.toList then
    jsTrim (String.mk (path.toList.drop "/api/controls/".length))
  else jsTrim path

/-- Status code produced by `handleControl`: 200 with the parsed record when
`getJson` yields a value (truthy), otherwise 404. -/
def handleControlStatus (bucket : String → Option String)
    (parse : String → Option ControlRecord) (pfx : String)
    (controlId : String) : Nat :=
  let key := joinKey pfx ("controls/" ++ controlId ++ ".json")
  match getJson bucket parse key with
  | JsValue.value _ => 200
  | _ => 404

/-! ### The related-controls resolvers

PDF extractor: `relatedControlsRegex = /related controls\s*:\s*([^\.]+(?:\.|$))/i`.
The searched clause is the run of non-period characters after the colon of the label (the regex also matches when `\s*` backtracks into `[^\.]+`, which is
why the run may keep its leading whitespace; the optional terminating period
carried in the capture contains no ID characters, so both differences are
invisible to the ID scan that consumes the clause).

HTML extractor: `/Related controls:\s*(.+?)\./i` — no whitespace allowed
before the colon, a literal period must terminate the clause, and the lazy
group captures up to the first period.  The degenerate backtracking cases
(clause starting with a period) are reproduced below; the inputs of this
pipeline are single-line, whitespace-collapsed strings, so the `.`-excludes-
newline subtlety never arises. -/

/-- Expect a colon at the head, returning what follows it. -/
def colonHead : List Char → Option (List Char)
  | ':' :: r => some r
  | _ => none

/-- Match `related controls` case-insensitively, then `\s*`, then `:` at the
head of `cs`; returns the text after the colon.  `tight := true` (HTML)
requires the colon immediately after the label. -/
def relLabelAt (tight : Bool) (cs : List Char) : Option (List Char) :=
  match stripCI "related controls".toList cs with
  | none => none
  | some rest => colonHead (if tight then rest else rest.dropWhile isWsChar)

def pdfClauseAt (cs : List Char) : Option (List Char) :=
  match relLabelAt false cs with
  | none => none
  | some w =>
    let clause := w.takeWhile (fun c => !(c == '.'))
    if clause.isEmpty then none else some clause

def pdfFindClause : List Char → Option (List Char)
  | [] => none
  | c :: cs =>
    match pdfClauseAt (c :: cs) with
    | some r => some r
    | none => pdfFindClause cs

def htmlClauseAt (cs : List Char) : Option (List Char) :=
  match relLabelAt true cs with
  | none => none
  | some w =>
    let a := w.takeWhile isWsChar
    let w1 := w.dropWhile isWsChar
    match w1.findIdx? (fun c => c == '.') with
    | none => none
    | some j =>
      if 1 ≤ j then some (w1.take j)
      else if !a.isEmpty then some [' ']
      else
        match (w1.drop 1).findIdx? (fun c => c == '.') with
        | none => none
        | some k => some (w1.take (k + 1))

def htmlFindClause : List Char → Option (List Char)
  | [] => none
  | c :: cs =>
    match htmlClauseAt (c :: cs) with
    | some r => some r
    | none => htmlFindClause cs

/-- Embeds `extractRelatedControls` of extract-annex-3a.mjs.  `if (!text) return []`
guards the empty string; the clause is scanned with the space-tolerant ID
regex and deduplicated via a `Set`. -/
def extractRelatedControlsPdf (text : String) : List String :=
  if text.isEmpty then [] else
  match pdfFindClause text.toList with
  | none => []
  | some clause => dedupFirstSeen (scanIds true clause)

/-- Embeds `extractRelatedControls` of extract-annex-3a-html.mjs: tight label and
tight ID pattern. -/
def extractRelatedControlsHtml (text : String) : List String :=
  match htmlFindClause text.toList with
  | none => []
  | some clause => dedupFirstSeen (scanIds false clause)

/-- Is there any position at which the (space-tolerant) `Related controls:`
label matches?  When this is false, neither resolver can match. -/
def hasRelLabel : List Char → Bool
  | [] => false
  | c :: cs => (relLabelAt false (c :: cs)).isSome || hasRelLabel cs

/-! ### extract-annex-3a.mjs: segmentation -/

/-- Embeds `controlHeadingRegex = /^([A-Z]{2})\s*-\s*(\d{1,3})\s+(.+)$/` (PDF); the
HTML variant `/^([A-Z]{2})-(\d{1,3})\s+(.+)$/` sets `spaced := false`.
Returns family letters, digits, and the trimmed name (`match[3].trim()` is
what both call sites store).  A run of four or more digits can never
satisfy `\d{1,3}` followed by `\s+`, since every shorter prefix of the run
is followed by a digit. -/
def matchControlHeading (spaced : Bool) (line : String) :
    Option (String × String × String) :=
  match line.toList with
  | c1 :: c2 :: rest =>
    if c1.isUpper && c2.isUpper then
      let r1 := if spaced then rest.dropWhile isWsChar else rest
      match r1 with
      | '-' :: r2 =>
        let r3 := if spaced then r2.dropWhile isWsChar else r2
        let ds := r3.takeWhile Char.isDigit
        let r4 := r3.dropWhile Char.isDigit
        if 1 ≤ ds.length && ds.length ≤ 3 then
          match r4 with
          | t :: _ :: _ =>
            if isWsChar t then
              some (String.mk [c1, c2], String.mk ds, jsTrim (String.mk r4))
            else none
          | _ => none
        else none
      | _ => none
    else none
  | _ => none

def lineHasStartMarker (line : String) : Bool :=
  strHas line "3. Security Control Definitions"

/-- Embeds `tocDots = /\.{2,}/`: two consecutive periods somewhere in the line. -/
def hasTwoDots : List Char → Bool
  | [] => false
  | [_] => false
  | a :: b :: cs => (a == '.' && b == '.') || hasTwoDots (b :: cs)

/-- Embeds `tocPage = /\s\d{1,3}$/`: the trailing digit run has length 1 to 3 and
is preceded by a whitespace character. -/
def hasTrailingPage (cs : List Char) : Bool :=
  let rev := cs.reverse
  let ds := rev.takeWhile Char.isDigit
  1 ≤ ds.length && ds.length ≤ 3 &&
    (match rev.dropWhile Char.isDigit with
     | c :: _ => isWsChar c
     | [] => false)

def isTocLine (line : String) : Bool :=
  hasTwoDots line.toList && hasTrailingPage line.toList

def hasUnbalancedOpenParen (text : String) : Bool :=
  decide (text.toList.count ')' < text.toList.count '(')

def contClassChar (c : Char) : Bool :=
  c.isUpper || c.isDigit || isWsChar c || c == '/' || c == '-' ||
  c == '(' || c == ')' || c == '|'

def isLikelyHeadingContinuation (line : String) : Bool :=
  !line.isEmpty && !line.toList.contains ':' &&
  (matchControlHeading true line).isNone && line.toList.all contClassChar

structure RawControl where
  control_id : String
  control_name : String
  lines : List String
deriving DecidableEq

structure SplitState where
  controls : List RawControl
  current : Option RawControl
  started : Bool

def splitBody (st : SplitState) (line : String) : SplitState :=
  match matchControlHeading true line with
  | some (fam, num, name) =>
    { controls := st.controls ++ st.current.toList
      current := some { control_id := fam ++ "-" ++ num, control_name := name, lines := [] }
      started := st.started }
  | none =>
    match st.current with
    | some cur => { st with current := some { cur with lines := cur.lines ++ [line] } }
    | none => st

def splitStep (st : SplitState) (line : String) : SplitState :=
  if !st.started then
    if lineHasStartMarker line then { st with started := true } else st
  else if isTocLine line then st
  else
    match st.current with
    | some cur =>
      if cur.lines.isEmpty && hasUnbalancedOpenParen cur.control_name &&
         isLikelyHeadingContinuation line then
        let cur1 := { cur with control_name := squashWs (cur.control_name ++ " " ++ line) }
        { st with current := some cur1 }
      else splitBody st line
    | none => splitBody st line

def splitControls (lines : List String) : List RawControl :=
  let st := lines.foldl splitStep { controls := [], current := none, started := false }
  st.controls ++ st.current.toList

/-! ### extract-annex-3a.mjs: section partitioning -/

inductive SectionKey where
  | statement | guidance | enhancements | related | references
deriving DecidableEq

/-- Embeds `normalizeHeader`: lowercase, collapse whitespace, trim. -/
def normalizeHeader (text : String) : String :=
  squashWs (jsToLower text)

/-- The `SECTION_HEADERS` lookup table. -/
def sectionKeyOf (h : String) : Option SectionKey :=
  if h == "control" then some SectionKey.statement
  else if h == "supplemental guidance" then some SectionKey.guidance
  else if h == "control enhancements" then some SectionKey.enhancements
  else if h == "related controls" then some SectionKey.related
  else if h == "references" then some SectionKey.references
  else none

/-- Embeds `/^([A-Za-z][A-Za-z ]+):\s*(.*)$/`: the run before the first colon must
be at least two characters, start with a letter, and consist of letters and
spaces only; `match[2]` is the rest of the line after the colon with its
leading whitespace removed by `\s*`. -/
def matchSectionHeader (line : String) : Option (String × String) :=
  let cs := line.toList
  let pre := cs.takeWhile (fun c => !(c == ':'))
  match cs.dropWhile (fun c => !(c == ':')) with
  | ':' :: r =>
    if 2 ≤ pre.length &&
       (match pre with | c :: _ => c.isAlpha | [] => false) &&
       pre.all (fun c => c.isAlpha || c == ' ') then
      some (String.mk pre, String.mk (r.dropWhile isWsChar))
    else none
  | _ => none

/-- The partial map from section keys to accumulated raw lines; `some []`
records that a section header was seen even if no content followed
(`if (!sectioned[cur]) sectioned[cur] = []` in the source), which matters
because an empty JS array is truthy. -/
structure PdfSections where
  statement : Option (List String)
  guidance : Option (List String)
  enhancements : Option (List String)
  related : Option (List String)
  references : Option (List String)
deriving DecidableEq

def PdfSections.get (s : PdfSections) : SectionKey → Option (List String)
  | SectionKey.statement => s.statement
  | SectionKey.guidance => s.guidance
  | SectionKey.enhancements => s.enhancements
  | SectionKey.related => s.related
  | SectionKey.references => s.references

def PdfSections.put (s : PdfSections) (k : SectionKey) (v : List String) :
    PdfSections :=
  match k with
  | SectionKey.statement => { s with statement := some v }
  | SectionKey.guidance => { s with guidance := some v }
  | SectionKey.enhancements => { s with enhancements := some v }
  | SectionKey.related => { s with related := some v }
  | SectionKey.references => { s with references := some v }

def PdfSections.push (s : PdfSections) (k : SectionKey) (xs : List String) :
    PdfSections :=
  s.put k ((s.get k).getD [] ++ xs)

def parseSectionsStep (st : PdfSections × Option SectionKey) (line : String) :
    PdfSections × Option SectionKey :=
  let hdr :=
    match matchSectionHeader line with
    | some (h, rest) =>
      match sectionKeyOf (normalizeHeader h) with
      | some k => some (k, rest)
      | none => none
    | none => none
  match hdr with
  | some (k, rest) =>
    (st.1.push k (if rest.isEmpty then [] else [jsTrim rest]), some k)
  | none =>
    let k := st.2.getD SectionKey.statement
    (st.1.push k [line], some k)

def parseSections (lines : List String) : PdfSections :=
  (lines.foldl parseSectionsStep
    ({ statement := none, guidance := none, enhancements := none,
       related := none, references := none }, none)).1

/-! ### extract-annex-3a.mjs: statement parts -/

/-- Embeds `controlPartRegex = /^\(([A-Z])\)\s*(.+)$/` with `upper := true`,
`controlSubPartRegex = /^\(([a-z])\)\s*(.+)$/` with `upper := false`.
`(.+)` needs at least one character after the closing parenthesis; because
`\s*` can backtrack, whitespace alone satisfies it, and the call sites trim
the capture, which equals trimming the whole remainder. -/
def matchParenLetter (upper : Bool) (line : String) : Option (String × String) :=
  match line.toList with
  | '(' :: c :: ')' :: rest =>
    if (if upper then c.isUpper else c.isLower) && !rest.isEmpty then
      some (String.mk [c], jsTrim (String.mk rest))
    else none
  | _ => none

def appendToLastSubpart (subs : List Subpart) (line : String) : List Subpart :=
  match subs.getLast? with
  | some last => subs.dropLast ++ [{ last with text := jsTrim (last.text ++ " " ++ line) }]
  | none => subs

def pdfPartStep (st : List StatementPart × Option StatementPart) (line : String) :
    List StatementPart × Option StatementPart :=
  let (parts, cur) := st
  match matchParenLetter true line with
  | some (id, text) =>
    (parts ++ cur.toList, some { id := id, text := text, subparts := [] })
  | none =>
    match matchParenLetter false line, cur with
    | some (id, text), some c =>
      (parts, some { c with subparts := c.subparts ++ [{ id := id, text := text }] })
    | none, some c =>
      if c.subparts.isEmpty then
        (parts, some { c with text := jsTrim (c.text ++ " " ++ line) })
      else
        (parts, some { c with subparts := appendToLastSubpart c.subparts line })
    | _, none => (parts, none)

def parseStatementParts (lines : List String) : List StatementPart :=
  let (parts, cur) := lines.foldl pdfPartStep ([], none)
  parts ++ cur.toList

/-! ### extract-annex-3a.mjs: enhancements -/

/-- Embeds `enhancementHeaderRegex = /^\((\d+)\)\s+(.+)$/`: parenthesized digits,
at least one whitespace character, at least one further character; the title
is the trimmed remainder. -/
def matchEnhHeaderPdf (line : String) : Option (String × String) :=
  match line.toList with
  | '(' :: rest0 =>
    let ds := rest0.takeWhile Char.isDigit
    match rest0.dropWhile Char.isDigit with
    | ')' :: tail =>
      if ds.isEmpty then none
      else
        match tail with
        | t :: _ :: _ =>
          if isWsChar t then some (String.mk ds, jsTrim (String.mk tail)) else none
        | _ => none
    | _ => none
  | _ => none

/-- Embeds `line.toLowerCase().startsWith("enhancement supplemental guidance")`. -/
def enhGuidanceMarker (line : String) : Bool :=
  leadMatchesCI "enhancement supplemental guidance".toList line.toList

/-- Embeds `line.split(":").slice(1).join(":")`: everything after the first colon,
or the empty string when the line has no colon. -/
def postColon (line : String) : String :=
  match line.toList.dropWhile (fun c => !(c == ':')) with
  | ':' :: r => String.mk r
  | _ => ""

def enhStep (controlId : String) (st : List Enhancement × Option Enhancement)
    (line : String) : List Enhancement × Option Enhancement :=
  let (done, cur) := st
  match matchEnhHeaderPdf line with
  | some (num, title) =>
    (done ++ cur.toList,
     some { enhancement_id := controlId ++ "(" ++ num ++ ")",
            title := some title, statement := "", supplemental_guidance := none })
  | none =>
    match cur with
    | none => (done, none)
    | some c =>
      if enhGuidanceMarker line then
        let g := jsTrim (postColon line)
        if g.isEmpty then (done, some c)
        else (done, some { c with supplemental_guidance := some g })
      else
        match c.supplemental_guidance with
        | some g =>
          (done, some { c with supplemental_guidance := some (jsTrim (g ++ " " ++ line)) })
        | none =>
          (done, some { c with statement := jsTrim (c.statement ++ " " ++ line) })

def parseEnhancements (lines : List String) (controlId : String) :
    List Enhancement :=
  let (done, cur) := lines.foldl (enhStep controlId) ([], none)
  done ++ cur.toList

/-! ### extract-annex-3a.mjs: record and index assembly -/

/-- Embeds `buildKeywords`: control name, then the id and title of each enhancement,
skipping falsy (empty) values, inserted into a `Set` (first-seen order). -/
def buildKeywords (controlName : String) (enhancements : List Enhancement) :
    List String :=
  dedupFirstSeen
    ((if controlName.isEmpty then [] else [controlName]) ++
     (enhancements.map (fun e =>
        (if e.enhancement_id.isEmpty then [] else [e.enhancement_id]) ++
        (match e.title with
         | some t => if t.isEmpty then [] else [t]
         | none => []))).flatten)

def joinSp (xs : List String) : String :=
  String.intercalate " " xs

/-- The per-control body of `extract()`: sections, related controls (from
the guidance prose and from a dedicated `Related controls:` section),
enhancements, statement parts, and the final record.  Empty lists become
absent fields exactly where the source stores `undefined`. -/
def assembleRecord (control : RawControl) : ControlRecord :=
  let sections := parseSections control.lines
  let supplementalGuidance := sections.guidance.map joinSp
  let relatedControls := dedupFirstSeen
    (extractRelatedControlsPdf (supplementalGuidance.getD "") ++
     (match sections.related with
      | some ls => extractRelatedControlsPdf (joinSp ls)
      | none => []))
  let enhancements := parseEnhancements (sections.enhancements.getD []) control.control_id
  let statementParts := parseStatementParts (sections.statement.getD [])
  { control_id := control.control_id
    control_name := control.control_name
    family_id := String.mk (control.control_id.toList.takeWhile (fun c => !(c == '-')))
    statement := sections.statement.map joinSp
    statement_parts := if statementParts.isEmpty then none else some statementParts
    supplemental_guidance := supplementalGuidance
    enhancements := if enhancements.isEmpty then none else some enhancements
    related_controls := if relatedControls.isEmpty then none else some relatedControls
    references := sections.references
    raw_text := some control.lines
    source_url := none
    source_type := none }

def pdfIndexEntryOf (r : ControlRecord) : ControlIndexItem :=
  { control_id := r.control_id
    control_name := r.control_name
    family_id := r.family_id
    aliases := some []
    keywords := some (buildKeywords r.control_name (r.enhancements.getD [])) }

/-! ### Persistence traces

The file-system effects of a run are recorded as an ordered trace of write
events: creating the output directory, writing one control record file,
writing the index file, writing the metadata file (HTML path only).  A run
that throws produces no events (`Except.error`). -/

inductive WriteEvent where
  | mkdirEv : WriteEvent
  | ctrlFile (id : String) (rec : ControlRecord) : WriteEvent
  | indexFile (entries : List ControlIndexItem) : WriteEvent
  | metadataFile : WriteEvent
deriving DecidableEq

def WriteEvent.isCtrlWrite : WriteEvent → Bool
  | WriteEvent.ctrlFile _ _ => true
  | _ => false

def WriteEvent.isIndexWrite : WriteEvent → Bool
  | WriteEvent.indexFile _ => true
  | _ => false

/-- JS `Map.set`: replace the value in place when the key exists (keeping
first-insertion iteration order), otherwise append. -/
def jsMapSet {β : Type} (m : List (String × β)) (k : String) (v : β) :
    List (String × β) :=
  if m.any (fun p => p.1 == k) then
    m.map (fun p => if p.1 == k then (k, v) else p)
  else m ++ [(k, v)]

/-- Embeds `extract()` of extract-annex-3a.mjs, from the grouped lines onward:
abort when segmentation finds no controls; otherwise create the output
directory, write one file per control (building the index map in the same
pass), and write the index file last, holding the values of the map in
insertion order. -/
def pdfExtract (allLines : List String) : Except String (List WriteEvent) :=
  let rawControls := splitControls allLines
  if rawControls.isEmpty then
    Except.error "No controls found. Check the parser or PDF version."
  else
    let records := rawControls.map assembleRecord
    let indexPairs := records.map (fun r => (r.control_id, pdfIndexEntryOf r))
    let indexMap := indexPairs.foldl (fun m p => jsMapSet m p.1 p.2) []
    Except.ok
      (WriteEvent.mkdirEv ::
       records.map (fun r => WriteEvent.ctrlFile r.control_id r) ++
       [WriteEvent.indexFile (indexMap.map Prod.snd)])

/-- Index entry construction in `run()` of extract-annex-3a-html.mjs. -/
def htmlIndexEntryOf (c : ControlRecord) : ControlIndexItem :=
  { control_id := c.control_id
    control_name := c.control_name
    family_id := c.family_id
    aliases := some []
    keywords := some (buildKeywords c.control_name (c.enhancements.getD [])) }

/-- Embeds `run()` of extract-annex-3a-html.mjs, from the parsed controls onward:
abort when parsing found no controls; otherwise create the output
directory, write every control file, then the index, then the metadata. -/
def htmlRun (controls : List ControlRecord) : Except String (List WriteEvent) :=
  if controls.isEmpty then
    Except.error "No controls parsed from HTML source"
  else
    Except.ok
      (WriteEvent.mkdirEv ::
       controls.map (fun c => WriteEvent.ctrlFile c.control_id c) ++
       [WriteEvent.indexFile (controls.map htmlIndexEntryOf),
        WriteEvent.metadataFile])

/-- All index entries appearing in a trace. -/
def indexEntriesOf (events : List WriteEvent) : List ControlIndexItem :=
  (events.map (fun e =>
    match e with
    | WriteEvent.indexFile l => l
    | _ => [])).flatten

/-- All control-record writes appearing in a trace, in order. -/
def ctrlWritesOf (events : List WriteEvent) : List (String × ControlRecord) :=
  events.filterMap (fun e =>
    match e with
    | WriteEvent.ctrlFile id r => some (id, r)
    | _ => none)

/-! ### extract-annex-3a-html.mjs: statement lists

`numberToAlpha` converts a 1-based ordinal to letters bijectively
(1 to A, 26 to Z, 27 to AA); `parseStatementList` walks the `<li>` children
of an `<ol>`, using an explicit parenthetical marker in the text when
present, else the `value` attribute, else the 1-based position.  A list item
is modelled by its parsed `value` attribute (`none` when `Number.parseInt`
yields `NaN`), its flattened text with nested lists removed, and its nested
sub-items. -/

/-- The loop body of `numberToAlpha` on positive integers, fuel-driven:
`numberToAlpha(n) = numberToAlpha((n-1)/26) ++ letter((n-1)%26)`. -/
def natToAlphaAux : Nat → Bool → Nat → List Char
  | 0, _, _ => []
  | _ + 1, _, 0 => []
  | fuel + 1, lower, n + 1 =>
    natToAlphaAux fuel lower (n / 26) ++
    [Char.ofNat ((if lower then 97 else 65) + n % 26)]

/-- Embeds `numberToAlpha(value, lower)`: the JS `while (n > 0)` loop never runs for
a non-positive value, returning the empty string. -/
def numberToAlpha (lower : Bool) (n : Int) : String :=
  if n ≤ 0 then "" else String.mk (natToAlphaAux n.toNat lower n.toNat)

structure SubLi where
  value : Option Int
  text : String
deriving DecidableEq

structure LiNode where
  value : Option Int
  text : String
  subs : List SubLi
deriving DecidableEq

/-- Embeds `partRegex = /^\(([A-Z]{1,2})\)\s*(.+)$/` of the HTML extractor: one or
two uppercase letters in parentheses; the `\b`-free `{1,2}` quantifier with
the following `\)` means a three-letter run never matches. -/
def matchHtmlPartUpper (text : String) : Option (String × String) :=
  match text.toList with
  | '(' :: rest0 =>
    let us := rest0.takeWhile Char.isUpper
    match rest0.dropWhile Char.isUpper with
    | ')' :: tail =>
      if 1 ≤ us.length && us.length ≤ 2 && !tail.isEmpty then
        some (String.mk us, jsTrim (String.mk tail))
      else none
    | _ => none
  | _ => none

/-- Embeds `stripPartMarker`: try the uppercase part pattern, then the lowercase
subpart pattern. -/
def stripPartMarker (text : String) : Option (String × String) :=
  match matchHtmlPartUpper text with
  | some r => some r
  | none => matchParenLetter false text

def subPartOfLi (j : Nat) (sub : SubLi) : Subpart :=
  let ordinal : Int := sub.value.getD (Int.ofNat (j + 1))
  let derived := numberToAlpha true ordinal
  match stripPartMarker sub.text with
  | some (id, text) => { id := id, text := text }
  | none => { id := derived, text := sub.text }

def subPartsOfLi : Nat → List SubLi → List Subpart
  | _, [] => []
  | j, s :: rest => subPartOfLi j s :: subPartsOfLi (j + 1) rest

def partOfLi (i : Nat) (li : LiNode) : StatementPart :=
  let ordinal : Int := li.value.getD (Int.ofNat (i + 1))
  let derived := numberToAlpha false ordinal
  match stripPartMarker li.text with
  | some (id, text) =>
    { id := id, text := text, subparts := subPartsOfLi 0 li.subs }
  | none =>
    { id := derived, text := li.text, subparts := subPartsOfLi 0 li.subs }

/-- Embeds `parseStatementList`, as a walk with the current 0-based index. -/
def parseStatementListHtml : Nat → List LiNode → List StatementPart
  | _, [] => []
  | i, li :: rest => partOfLi i li :: parseStatementListHtml (i + 1) rest

/-- Assembly of one HTML control record from its parsed sections (the tail
of `parseControlsFromHtml`): the flat statement joins the collected
statement lines, related controls come from the joined guidance prose, and
empty collections become absent fields. -/
def htmlAssemble (controlId controlName familyId : String)
    (statementLines : List String) (statementParts : List StatementPart)
    (guidanceParas : List String) (enhancements : List Enhancement)
    (references : List String) : ControlRecord :=
  let statement := jsTrim (joinSp statementLines)
  let guidanceText := jsTrim (joinSp guidanceParas)
  let relatedControls := extractRelatedControlsHtml guidanceText
  { control_id := controlId
    control_name := controlName
    family_id := familyId
    statement := if statement.isEmpty then none else some statement
    statement_parts := if statementParts.isEmpty then none else some statementParts
    supplemental_guidance := if guidanceText.isEmpty then none else some guidanceText
    enhancements := if enhancements.isEmpty then none else some enhancements
    related_controls := if relatedControls.isEmpty then none else some relatedControls
    references := if references.isEmpty then none else some references
    raw_text := none
    source_url := some "https://www.cyber.gc.ca/en/guidance/annex-3a-security-control-catalogue-itsg-33"
    source_type := some "html" }

/-! ### export-assignments-csv.mjs -/

/-- One match of `assignmentPattern = /\[Assignment:[^\]]+\]/gi` starting at
the head of `cs`: the literal `[Assignment:` case-insensitively, at least
one character other than `]`, then `]`.  Returns the matched slice and the
remainder. -/
def matchAssignAt (cs : List Char) : Option (String × List Char) :=
  if leadMatchesCI "[assignment:".toList cs then
    let rest := cs.drop 12
    let body := rest.takeWhile (fun c => !(c == ']'))
    if body.isEmpty then none
    else
      match rest.drop body.length with
      | ']' :: r2 => some (String.mk (cs.take (12 + body.length + 1)), r2)
      | _ => none
  else none

/-- Embeds `text.match(assignmentPattern)`: successive leftmost non-overlapping
matches. -/
def scanAssignsAux : Nat → List Char → List String
  | 0, _ => []
  | _ + 1, [] => []
  | fuel + 1, c :: cs =>
    match matchAssignAt (c :: cs) with
    | some (m, rest) => m :: scanAssignsAux fuel rest
    | none => scanAssignsAux fuel cs

def findAssignmentsL (cs : List Char) : List String :=
  scanAssignsAux (cs.length + 1) cs

def findAssignments (text : String) : List String :=
  findAssignmentsL text.toList

/-- Embeds `normalizeAssignment` = `normalizeSpaces`. -/
def normalizeAssignment (text : String) : String :=
  squashWs text

/-- Embeds `parseAssignmentTopic`: strip one leading `[` and one trailing `]`, then
the `Assignment:` prefix with following whitespace (case-insensitively) and
trim, then the `organization-defined` prefix with following whitespace and
trim. -/
def stripLeadBracket (cs : List Char) : List Char :=
  match cs with
  | '[' :: r => r
  | _ => cs

def stripTrailBracket (cs : List Char) : List Char :=
  match cs.reverse with
  | ']' :: r => r.reverse
  | _ => cs

def stripCIWithWs (pat : List Char) (cs : List Char) : List Char :=
  match stripCI pat cs with
  | some r => r.dropWhile isWsChar
  | none => cs

def parseAssignmentTopic (assignment : String) : String :=
  let inner := stripTrailBracket (stripLeadBracket assignment.toList)
  let withoutPfx := trimList (stripCIWithWs "assignment:".toList inner)
  String.mk (trimList (stripCIWithWs "organization-defined".toList withoutPfx))

/-- Embeds `categorizeTopic`: first-match keyword classification of the lowercased
topic. -/
def categorizeTopic (topic : String) : String :=
  let t := jsToLower topic
  if strHas t "frequency" then "cadence"
  else if strHas t "time period" || strHas t "timeframe" || strHas t "period of time" then
    "time_window"
  else if strHas t "personnel" || strHas t "roles" || strHas t "individuals" then
    "roles_responsibilities"
  else if strHas t "number" || strHas t "threshold" || strHas t "limit" then "threshold"
  else if strHas t "condition" || strHas t "criteria" || strHas t "circumstances" then
    "conditions"
  else if strHas t "action" || strHas t "procedure" || strHas t "step" then "actions"
  else if strHas t "security safeguard" || strHas t "security control" ||
          strHas t "security function" || strHas t "security attribute" then
    "security_specification"
  else if strHas t "component" || strHas t "system" || strHas t "device" ||
          strHas t "media" || strHas t "account" || strHas t "application" ||
          strHas t "service" then
    "scope_inventory"
  else if strHas t "external organization" || strHas t "provider" then "external_parties"
  else if strHas t "test" || strHas t "assessment" then "validation"
  else "general"

/-- The per-field behaviour of `collectAssignmentsInScope` followed by row
derivation: one row per distinct normalized placeholder in the scanned
text, with its derived topic and category. -/
def assignmentRowsOf (text : String) : List (String × String × String) :=
  (dedupFirstSeen ((findAssignments text).map normalizeAssignment)).map
    (fun a => (a, parseAssignmentTopic a, categorizeTopic (parseAssignmentTopic a)))

/-! ### Claim-side predicates and concrete instances -/

/-- Ascending lexicographic order on strings by code point, used to state
the "sorted for determinism" property of the spec for `related_controls`. -/
def lexLe : List Char → List Char → Bool
  | [], _ => true
  | _ :: _, [] => false
  | a :: as, b :: bs =>
    if a.toNat < b.toNat then true
    else if b.toNat < a.toNat then false
    else lexLe as bs

def strLe (a b : String) : Bool :=
  lexLe a.toList b.toList

def sortedAsc : List String → Bool
  | [] => true
  | [_] => true
  | a :: b :: rest => strLe a b && sortedAsc (b :: rest)

/-- Index/record consistency of a persistence trace: every index entry has a
record write with the same id, name and family; every record write has an
index entry with its id; and the trace splits into a record-writing phase
followed by an index-writing phase (all control files precede the index). -/
def IndexRecordConsistent (events : List WriteEvent) : Prop :=
  (∀ e ∈ indexEntriesOf events, ∃ p ∈ ctrlWritesOf events,
     p.1 = e.control_id ∧ p.2.control_name = e.control_name ∧
     p.2.family_id = e.family_id) ∧
  (∀ p ∈ ctrlWritesOf events, ∃ e ∈ indexEntriesOf events, e.control_id = p.1) ∧
  (∃ n : Nat, (∀ ev ∈ events.take n, ev.isIndexWrite = false) ∧
              (∀ ev ∈ events.drop n, ev.isCtrlWrite = false))

/-- A minimal stored record used to exercise the read-side handlers. -/
def c1Record : ControlRecord :=
  { control_id := "AC-2", control_name := "Account Management", family_id := "AC",
    statement := none, statement_parts := none, supplemental_guidance := none,
    enhancements := none, related_controls := none, references := none,
    raw_text := none, source_url := none, source_type := none }

def c1Bytes : String := "serialized ControlRecord for AC-2"

/-- A bucket publishing `c1Bytes` under exactly the key `handleControl`
computes for the routed id of `GET /api/controls/AC-2.json`. -/
def c1Bucket : String → Option String := fun key =>
  if key == "controls/AC-2.json.json" then some c1Bytes else none

/-- A JSON-parse model under which the published bytes are valid. -/
def c1Parse : String → Option ControlRecord := fun s =>
  if s == c1Bytes then some c1Record else none

/-- A two-entry index for exercising the chat selection. -/
def c2Index : List ControlIndexItem :=
  [{ control_id := "AC-2", control_name := "Account Management", family_id := "AC",
     aliases := some [], keywords := some [] },
   { control_id := "IA-2", control_name := "Identification and Authentication",
     family_id := "IA", aliases := some [], keywords := some [] }]

/-- A control whose guidance names related controls out of order. -/
def cexC5 : RawControl :=
  { control_id := "AC-1", control_name := "ACCESS CONTROL POLICY",
    lines := ["Control: Do a thing.",
              "Supplemental Guidance: Related controls: AC-3, AC-2."] }

/-- The assignment placeholder of the classification scenario in the spec. -/
def patC9 : String := "[Assignment: organization-defined frequency]"

/-- The characters strictly between `[Assignment:` and the closing `]` of
`patC9`. -/
def bodyC9 : List Char := " organization-defined frequency".toList

/-- The record and index entry that `pdfExtract` produces for the two-line
witness document (heading only, no body). -/
def c3Rec : ControlRecord :=
  { control_id := "AC-1", control_name := "POLICY", family_id := "AC",
    statement := none, statement_parts := none, supplemental_guidance := none,
    enhancements := none, related_controls := none, references := none,
    raw_text := some [], source_url := none, source_type := none }

def c3Entry : ControlIndexItem :=
  { control_id := "AC-1", control_name := "POLICY", family_id := "AC",
    aliases := some [], keywords := some ["POLICY"] }

/-! ## Helper lemmas -/

theorem notSeen_of_mem_dedupSeen :
    ∀ (l seen : List String) (x : String),
      x ∈ dedupSeen seen l → seen.contains x = false := by
  intro l
  induction l with
  | nil => intro seen x h; simp [dedupSeen] at h
  | cons y ys ih =>
    intro seen x h
    by_cases hc : seen.contains y = true
    · simp only [dedupSeen, hc, if_pos] at h
      exact ih seen x h
    · simp only [dedupSeen, hc, if_neg, Bool.not_eq_true] at h
      rcases List.mem_cons.mp h with he | hm
      · subst he
        simpa using hc
      · have h2 := ih (y :: seen) x hm
        simp only [List.contains_cons, Bool.or_eq_false_iff] at h2
        exact h2.2

theorem mem_of_mem_dedupSeen :
    ∀ (l seen : List String) (x : String), x ∈ dedupSeen seen l → x ∈ l := by
  intro l
  induction l with
  | nil => intro seen x h; simp [dedupSeen] at h
  | cons y ys ih =>
    intro seen x h
    by_cases hc : seen.contains y = true
    · simp only [dedupSeen, hc, if_pos] at h
      exact List.mem_cons_of_mem _ (ih seen x h)
    · simp only [dedupSeen, hc, if_neg, Bool.not_eq_true] at h
      rcases List.mem_cons.mp h with he | hm
      · subst he; exact List.mem_cons_self _ _
      · exact List.mem_cons_of_mem _ (ih (y :: seen) x hm)

theorem nodup_dedupSeen : ∀ (l seen : List String), (dedupSeen seen l).Nodup := by
  intro l
  induction l with
  | nil => intro seen; simp [dedupSeen]
  | cons y ys ih =>
    intro seen
    by_cases hc : seen.contains y = true
    · simpa only [dedupSeen, hc, if_pos] using ih seen
    · simp only [dedupSeen, hc, if_neg, Bool.not_eq_true]
      refine List.nodup_cons.mpr ⟨?_, ih (y :: seen)⟩
      intro hmem
      have := notSeen_of_mem_dedupSeen ys (y :: seen) y hmem
      simp [List.contains_cons] at this

theorem nodup_dedupFirstSeen (l : List String) : (dedupFirstSeen l).Nodup :=
  nodup_dedupSeen l []

theorem mem_of_mem_dedupFirstSeen {l : List String} {x : String}
    (h : x ∈ dedupFirstSeen l) : x ∈ l :=
  mem_of_mem_dedupSeen l [] x h

theorem idTail_canonical {c1 c2 : Char} {r3 : List Char} {id : String}
    {lastC : Char} {rest : List Char}
    (h : idTail c1 c2 r3 = some (id, lastC, rest)) :
    isCanonicalId id = true := by
  simp only [idTail] at h
  split at h
  · rename_i hcond
    simp only [Option.some.injEq, Prod.mk.injEq] at h
    have hid := h.1
    subst hid
    simp only [Bool.and_eq_true, decide_eq_true_eq] at hcond
    obtain ⟨⟨⟨⟨hup1, hup2⟩, hlen1⟩, hlen3⟩, _hb⟩ := hcond
    have hne : r3.takeWhile Char.isDigit ≠ [] := by
      intro hnil
      rw [hnil] at hlen1
      simp at hlen1
    have hds : ∀ x ∈ r3.takeWhile Char.isDigit, Char.isDigit x = true :=
      fun x hx => List.mem_takeWhile_imp hx
    simp only [isCanonicalId, String.toList, String.mk]
    simp only [Bool.and_eq_true, decide_eq_true_eq, Bool.not_eq_true',
      List.isEmpty_eq_false, List.all_eq_true]
    exact ⟨⟨⟨⟨hup1, hup2⟩, hne⟩, hlen3⟩, hds⟩
  · exact absurd h (by simp)

theorem afterLetters_canonical {allowSpace : Bool} {c1 c2 : Char}
    {r1 : List Char} {id : String} {lastC : Char} {rest : List Char}
    (h : afterLetters allowSpace c1 c2 r1 = some (id, lastC, rest)) :
    isCanonicalId id = true := by
  unfold afterLetters at h
  split at h
  · exact idTail_canonical h
  · exact absurd h (by simp)

theorem matchIdAt_canonical {allowSpace : Bool} {prev : Option Char}
    {cs : List Char} {id : String} {lastC : Char} {rest : List Char}
    (h : matchIdAt allowSpace prev cs = some (id, lastC, rest)) :
    isCanonicalId id = true := by
  unfold matchIdAt at h
  split at h
  · cases cs with
    | nil => simp at h
    | cons c1 cs1 =>
      cases cs1 with
      | nil => simp at h
      | cons c2 rest0 => exact afterLetters_canonical h
  · exact absurd h (by simp)

theorem scanIdsAux_canonical {allowSpace : Bool} :
    ∀ (fuel : Nat) (prev : Option Char) (cs : List Char) (x : String),
      x ∈ scanIdsAux allowSpace fuel prev cs → isCanonicalId x = true := by
  intro fuel
  induction fuel with
  | zero => intro prev cs x h; simp [scanIdsAux] at h
  | succ n ih =>
    intro prev cs x h
    cases cs with
    | nil => simp [scanIdsAux] at h
    | cons c cs1 =>
      simp only [scanIdsAux] at h
      cases hm : matchIdAt allowSpace prev (c :: cs1) with
      | some r =>
        rw [hm] at h
        rcases List.mem_cons.mp h with he | hmem
        · subst he
          exact matchIdAt_canonical (by rw [hm])
        · exact ih _ _ x hmem
      | none =>
        rw [hm] at h
        exact ih _ _ x h

theorem scanIds_canonical {allowSpace : Bool} {cs : List Char} {x : String}
    (h : x ∈ scanIds allowSpace cs) : isCanonicalId x = true :=
  scanIdsAux_canonical _ _ _ x h

/-! ## Claims -/

/-- C1: the spec says `GET /api/controls/<control_id>.json` returns 200 with
the stored ControlRecord whenever a record is published under the key the
handler computes and its bytes parse as JSON.  The code cannot do this: the
parse branch of `getJson` is dead code behind `return null`, so an existing
object makes `getJson` return `undefined` and the handler answers 404.
Below, the bucket holds valid bytes under exactly the key the handler
queries for the routed id, the parse model accepts them, and the handler
still answers 404; moreover no bucket, parse model, prefix and id at all
can make the handler answer 200. -/
theorem C1_published_valid_record_gets_404 :
    routeControlId "/api/controls/AC-2.json" = "AC-2.json" ∧
    c1Bucket (joinKey "" ("controls/" ++ "AC-2.json" ++ ".json")) = some c1Bytes ∧
    c1Parse c1Bytes = some c1Record ∧
    handleControlStatus c1Bucket c1Parse "" "AC-2.json" = 404 ∧
    (∀ (bucket : String → Option String) (parse2 : String → Option ControlRecord)
       (pfx cid : String), handleControlStatus bucket parse2 pfx cid ≠ 200) := by
  refine ⟨by decide, by decide, by decide, by decide, ?_⟩
  intro bucket parse2 pfx cid
  simp only [handleControlStatus, getJson]
  cases hb : bucket (joinKey pfx ("controls/" ++ cid ++ ".json")) <;> simp [hb]

/-- C2: the spec says a body with a non-empty `control_ids` array selects
exactly the caller-supplied ids (priority (a)).  The handler reads
`payload.controlIds`, which is not a field of the declared `ChatRequest`
type, so the caller ids are dropped and selection falls through to the
embedded-ID scan: the request below supplies `control_ids = ["AC-2"]` but
the selection is `["IA-2"]` from the question text.  `selectControlIds`
itself, handed the ids, would honour them. -/
theorem C2_caller_control_ids_ignored :
    handleChatSelectedControls
      { question := "What does IA-2 require?", control_ids := ["AC-2"] } c2Index
      = ["IA-2"] ∧
    selectControlIds "What does IA-2 require?" (some ["AC-2"]) c2Index 6 = ["AC-2"] := by
  constructor <;> decide

/-- C4: a document in which segmentation detects zero controls makes both
extraction runs abort with the error message of the source, producing no write
events at all: the output directory is not created and no control, index or
metadata file is written. -/
theorem C4_zero_controls_aborts_before_output :
    (∀ allLines : List String, splitControls allLines = [] →
       pdfExtract allLines =
         Except.error "No controls found. Check the parser or PDF version." ∧
       ∀ events : List WriteEvent, pdfExtract allLines ≠ Except.ok events) ∧
    (htmlRun [] = Except.error "No controls parsed from HTML source" ∧
     ∀ events : List WriteEvent, htmlRun [] ≠ Except.ok events) := by
  constructor
  · intro allLines h
    have hrun : pdfExtract allLines =
        Except.error "No controls found. Check the parser or PDF version." := by
      unfold pdfExtract
      rw [h]
      simp
    exact ⟨hrun, fun events hok => by rw [hrun] at hok; exact absurd hok (by simp)⟩
  · have hrun : htmlRun [] = Except.error "No controls parsed from HTML source" := by
      unfold htmlRun
      simp
    exact ⟨hrun, fun events hok => by rw [hrun] at hok; exact absurd hok (by simp)⟩

/-- C4 witness: a document with front matter only (no heading after the
start marker, indeed no start marker) aborts the PDF run. -/
theorem C4_zero_controls_aborts_before_output_witness :
    pdfExtract ["front matter only", "no control headings here"] =
      Except.error "No controls found. Check the parser or PDF version." :=
  (C4_zero_controls_aborts_before_output.1
    ["front matter only", "no control headings here"] (by decide)).1

theorem nonempty_of_isEmpty_false {s : String} (h : s ≠ "") : s.isEmpty = false := by
  cases he : s.isEmpty
  · rfl
  · exact absurd ((String.isEmpty_iff s).mp he) h

theorem extractRelatedPdf_canonical {t : String} {x : String}
    (h : x ∈ extractRelatedControlsPdf t) : isCanonicalId x = true := by
  unfold extractRelatedControlsPdf at h
  split at h
  · simp at h
  · cases hf : pdfFindClause t.toList with
    | none => rw [hf] at h; simp at h
    | some clause =>
      rw [hf] at h
      exact scanIds_canonical (mem_of_mem_dedupFirstSeen h)

theorem extractRelatedHtml_canonical {t : String} {x : String}
    (h : x ∈ extractRelatedControlsHtml t) : isCanonicalId x = true := by
  unfold extractRelatedControlsHtml at h
  cases hf : htmlFindClause t.toList with
  | none => rw [hf] at h; simp at h
  | some clause =>
    rw [hf] at h
    exact scanIds_canonical (mem_of_mem_dedupFirstSeen h)

/-- C5 counterexample: guidance naming `AC-3, AC-2` yields
`related_controls = ["AC-3", "AC-2"]` — deduplicated but in first-seen
order, not ascending lexicographic order.  Neither assembler sorts the
list, contrary to the claim. -/
theorem C5_cex_related_controls_not_sorted :
    (assembleRecord cexC5).related_controls = some ["AC-3", "AC-2"] ∧
    sortedAsc ["AC-3", "AC-2"] = false := by
  constructor <;> decide

/-- C5 (amended): every present `related_controls` field of a record built
by the PDF assembler is a non-empty, deduplicated (first-seen order) list of
canonical `XX-N` control-ID strings, and the HTML resolver likewise yields a
deduplicated list of canonical IDs; the list is NOT sorted — order is the
order of first extraction. -/
theorem C5_related_controls_dedup_canonical :
    (∀ (c : RawControl) (l : List String),
       (assembleRecord c).related_controls = some l →
       l.Nodup ∧ l ≠ [] ∧ ∀ x ∈ l, isCanonicalId x = true) ∧
    (∀ text : String, (extractRelatedControlsHtml text).Nodup ∧
       ∀ x ∈ extractRelatedControlsHtml text, isCanonicalId x = true) := by
  constructor
  · intro c l h
    simp only [assembleRecord] at h
    split at h
    · exact absurd h (by simp)
    · rename_i hne
      simp only [Option.some.injEq] at h
      subst h
      refine ⟨nodup_dedupFirstSeen _, ?_, ?_⟩
      · intro hnil
        rw [hnil] at hne
        simp at hne
      · intro x hx
        have hmem := mem_of_mem_dedupFirstSeen hx
        rcases List.mem_append.mp hmem with hl | hr
        · exact extractRelatedPdf_canonical hl
        · cases hrel : (parseSections c.lines).related with
          | none => rw [hrel] at hr; simp at hr
          | some ls =>
            rw [hrel] at hr
            exact extractRelatedPdf_canonical hr
  · intro text
    constructor
    · unfold extractRelatedControlsHtml
      cases hf : htmlFindClause text.toList with
      | none => simp
      | some clause => exact nodup_dedupFirstSeen _
    · intro x hx
      exact extractRelatedHtml_canonical hx

/-- C5 witness: the amended theorem applied to the concrete control of the
counterexample. -/
theorem C5_related_controls_dedup_canonical_witness :
    (["AC-3", "AC-2"] : List String).Nodup ∧
    (["AC-3", "AC-2"] : List String) ≠ [] ∧
    ∀ x ∈ (["AC-3", "AC-2"] : List String), isCanonicalId x = true :=
  C5_related_controls_dedup_canonical.1 cexC5 ["AC-3", "AC-2"] (by decide)

theorem enhMarker_no_header {line : String}
    (h : enhGuidanceMarker line = true) : matchEnhHeaderPdf line = none := by
  unfold matchEnhHeaderPdf
  split
  · rename_i rest0 heq
    exfalso
    unfold enhGuidanceMarker at h
    rw [heq] at h
    have hp : "enhancement supplemental guidance".toList
        = 'e' :: "nhancement supplemental guidance".toList := rfl
    rw [hp] at h
    simp only [leadMatchesCI, Bool.and_eq_true] at h
    exact absurd h.1 (by decide)
  · rfl

/-- C6 counterexample: a bare `Enhancement Supplemental Guidance` line (no
colon, hence nothing after one) does NOT switch the enhancement into
guidance-accumulation mode — the subsequent line lands in `statement` and
`supplemental_guidance` stays absent, contrary to the claim that the marker
works "with or without a trailing colon". -/
theorem C6_cex_bare_marker_stays_in_statement :
    parseEnhancements
      ["(1) Title", "Enhancement Supplemental Guidance", "More guidance text."]
      "AC-2" =
    [{ enhancement_id := "AC-2(1)", title := some "Title",
       statement := "More guidance text.", supplemental_guidance := none }] := by
  decide

/-- C6 (amended): the marker line switches the open enhancement into
guidance-accumulation mode only when non-empty text follows the first colon
of that line (the guidance is initialised to that text); once in guidance
mode, every subsequent line that is neither an enhancement header nor a
marker line is appended to `supplemental_guidance` rather than to
`statement`. -/
theorem C6_guidance_mode_on_colon_text :
    (∀ (cid : String) (done : List Enhancement) (cur : Enhancement) (line : String),
       enhGuidanceMarker line = true → jsTrim (postColon line) ≠ "" →
       enhStep cid (done, some cur) line =
         (done, some { cur with supplemental_guidance := some (jsTrim (postColon line)) })) ∧
    (∀ (cid : String) (done : List Enhancement) (cur : Enhancement) (line g : String),
       cur.supplemental_guidance = some g →
       matchEnhHeaderPdf line = none → enhGuidanceMarker line = false →
       enhStep cid (done, some cur) line =
         (done,
          some { cur with supplemental_guidance := some (jsTrim (g ++ " " ++ line)) })) := by
  constructor
  · intro cid done cur line hm hne
    simp only [enhStep, enhMarker_no_header hm, hm, if_true,
      nonempty_of_isEmpty_false hne]
    simp
  · intro cid done cur line g hg hh hm
    simp only [enhStep, hh, hm, hg]
    simp

theorem colonHead_of_dropWhile_none {rest : List Char}
    (h : colonHead (rest.dropWhile isWsChar) = none) : colonHead rest = none := by
  cases rest with
  | nil => rfl
  | cons c r =>
    by_cases hc : c = ':'
    · subst hc
      exfalso
      rw [List.dropWhile_cons] at h
      simp only [isWsChar] at h
      simp only [colonHead] at h
      exact absurd h (by simp)
    · unfold colonHead
      split
      · rename_i r2 heq
        exact absurd (List.cons.inj heq).1 hc
      · rfl

theorem relLabelAt_tight_none {cs : List Char}
    (h : relLabelAt false cs = none) : relLabelAt true cs = none := by
  unfold relLabelAt at h ⊢
  cases hs : stripCI "related controls".toList cs with
  | none => simp
  | some rest =>
    rw [hs] at h
    simp only at h ⊢
    simp only [if_true, if_false, Bool.false_eq_true] at h ⊢
    exact colonHead_of_dropWhile_none h

theorem pdfFindClause_none_of_no_label :
    ∀ cs : List Char, hasRelLabel cs = false → pdfFindClause cs = none := by
  intro cs
  induction cs with
  | nil => intro _; rfl
  | cons c cs1 ih =>
    intro h
    simp only [hasRelLabel, Bool.or_eq_false_iff] at h
    have hlab : relLabelAt false (c :: cs1) = none := by
      cases hr : relLabelAt false (c :: cs1) with
      | none => rfl
      | some r =>
        have := h.1
        rw [hr] at this
        simp at this
    have hca : pdfClauseAt (c :: cs1) = none := by
      unfold pdfClauseAt
      rw [hlab]
    simp only [pdfFindClause, hca]
    exact ih h.2

theorem htmlFindClause_none_of_no_label :
    ∀ cs : List Char, hasRelLabel cs = false → htmlFindClause cs = none := by
  intro cs
  induction cs with
  | nil => intro _; rfl
  | cons c cs1 ih =>
    intro h
    simp only [hasRelLabel, Bool.or_eq_false_iff] at h
    have hlab : relLabelAt false (c :: cs1) = none := by
      cases hr : relLabelAt false (c :: cs1) with
      | none => rfl
      | some r =>
        have := h.1
        rw [hr] at this
        simp at this
    have hca : htmlClauseAt (c :: cs1) = none := by
      unfold htmlClauseAt
      rw [relLabelAt_tight_none hlab]
    simp only [htmlFindClause, hca]
    exact ih h.2

/-- C7: the dedup scenario of the spec holds in both resolvers, and any text with
no `Related controls` label (case-insensitive, allowing whitespace before
the colon) resolves to the empty list even when the text contains
control-ID-shaped tokens. -/
theorem C7_related_controls_resolver :
    extractRelatedControlsPdf "Related controls: AC-2, AC-3, AC-2, AC-6." =
      ["AC-2", "AC-3", "AC-6"] ∧
    extractRelatedControlsHtml "Related controls: AC-2, AC-3, AC-2, AC-6." =
      ["AC-2", "AC-3", "AC-6"] ∧
    (∀ text : String, hasRelLabel text.toList = false →
       extractRelatedControlsPdf text = [] ∧ extractRelatedControlsHtml text = []) := by
  refine ⟨by decide, by decide, ?_⟩
  intro text h
  constructor
  · unfold extractRelatedControlsPdf
    rw [pdfFindClause_none_of_no_label _ h]
    split <;> rfl
  · unfold extractRelatedControlsHtml
    rw [htmlFindClause_none_of_no_label _ h]

/-- C7 witness: a text that names control IDs but carries no label resolves
to the empty list in both resolvers. -/
theorem C7_related_controls_resolver_witness :
    extractRelatedControlsPdf "The AC-2 control and AU-4 are mentioned." = [] ∧
    extractRelatedControlsHtml "The AC-2 control and AU-4 are mentioned." = [] :=
  C7_related_controls_resolver.2.2 "The AC-2 control and AU-4 are mentioned." (by decide)

/-- C9 counterexample: a string field that contains the placeholder
`[Assignment: organization-defined frequency]` preceded by an unterminated
`[Assignment:` opener; the single match of the scan absorbs the placeholder, and
the derived topic is not `"frequency"` (the category still comes out as
cadence because the topic contains the word). -/
theorem C9_cex_absorbed_placeholder :
    strHas "[Assignment: time [Assignment: organization-defined frequency]" patC9 = true ∧
    assignmentRowsOf "[Assignment: time [Assignment: organization-defined frequency]" =
      [("[Assignment: time [Assignment: organization-defined frequency]",
        "time [Assignment: organization-defined frequency", "cadence")] ∧
    ("time [Assignment: organization-defined frequency" : String) ≠ "frequency" := by
  refine ⟨by decide, by decide, by decide⟩

theorem parseStatementListHtml_getElem :
    ∀ (lis : List LiNode) (k i : Nat) (li : LiNode),
      lis[i]? = some li →
      (parseStatementListHtml k lis)[i]? = some (partOfLi (k + i) li) := by
  intro lis
  induction lis with
  | nil => intro k i li h; simp at h
  | cons x xs ih =>
    intro k i li h
    cases i with
    | zero =>
      simp only [List.getElem?_cons_zero, Option.some.injEq] at h
      subst h
      simp [parseStatementListHtml]
    | succ j =>
      simp only [List.getElem?_cons_succ] at h
      have hx := ih (k + 1) j li h
      simp only [parseStatementListHtml, List.getElem?_cons_succ]
      rw [hx]
      have : k + 1 + j = k + (j + 1) := by omega
      rw [this]

theorem subPartsOfLi_getElem :
    ∀ (subs : List SubLi) (k j : Nat) (s : SubLi),
      subs[j]? = some s →
      (subPartsOfLi k subs)[j]? = some (subPartOfLi (k + j) s) := by
  intro subs
  induction subs with
  | nil => intro k j s h; simp at h
  | cons x xs ih =>
    intro k j s h
    cases j with
    | zero =>
      simp only [List.getElem?_cons_zero, Option.some.injEq] at h
      subst h
      simp [subPartsOfLi]
    | succ j' =>
      simp only [List.getElem?_cons_succ] at h
      have hx := ih (k + 1) j' s h
      simp only [subPartsOfLi, List.getElem?_cons_succ]
      rw [hx]
      have : k + 1 + j' = k + (j' + 1) := by omega
      rw [this]

/-- C8: in the HTML statement parser, an item with no `value` attribute and
no parenthetical marker derives its id from its 1-based position by the
bijective ordinal-to-letter mapping of `numberToAlpha` (uppercase for parts,
lowercase for subparts); in particular positions 1, 2, 3 derive A, B, C,
position 26 derives Z and position 27 derives AA. -/
theorem C8_derived_ordinal_ids :
    (∀ (lis : List LiNode) (i : Nat) (li : LiNode),
       lis[i]? = some li → li.value = none → stripPartMarker li.text = none →
       ∃ p : StatementPart, (parseStatementListHtml 0 lis)[i]? = some p ∧
         p.id = numberToAlpha false (Int.ofNat (i + 1))) ∧
    (∀ (subs : List SubLi) (j : Nat) (s : SubLi),
       subs[j]? = some s → s.value = none → stripPartMarker s.text = none →
       ∃ q : Subpart, (subPartsOfLi 0 subs)[j]? = some q ∧
         q.id = numberToAlpha true (Int.ofNat (j + 1))) ∧
    numberToAlpha false 1 = "A" ∧ numberToAlpha false 2 = "B" ∧
    numberToAlpha false 3 = "C" ∧ numberToAlpha false 26 = "Z" ∧
    numberToAlpha false 27 = "AA" ∧ numberToAlpha true 27 = "aa" := by
  refine ⟨?_, ?_, by decide, by decide, by decide, by decide, by decide, by decide⟩
  · intro lis i li h hv hm
    refine ⟨partOfLi (0 + i) li, parseStatementListHtml_getElem lis 0 i li h, ?_⟩
    unfold partOfLi
    rw [hm, hv]
    simp
  · intro subs j s h hv hm
    refine ⟨subPartOfLi (0 + j) s, subPartsOfLi_getElem subs 0 j s h, ?_⟩
    unfold subPartOfLi
    rw [hm, hv]
    simp

/-- C8 witness: the second of two unmarked items derives id `B`. -/
theorem C8_derived_ordinal_ids_witness :
    ∃ p : StatementPart,
      (parseStatementListHtml 0
        [{ value := none, text := "first item", subs := [] },
         { value := none, text := "second item", subs := [] }])[1]? = some p ∧
      p.id = numberToAlpha false (Int.ofNat (1 + 1)) :=
  C8_derived_ordinal_ids.1
    [{ value := none, text := "first item", subs := [] },
     { value := none, text := "second item", subs := [] }] 1
    { value := none, text := "second item", subs := [] }
    (by decide) rfl (by decide)

theorem leadMatchesCI_append (ps : List Char) :
    ∀ (l rest : List Char), ps.length ≤ l.length →
      leadMatchesCI ps (l ++ rest) = leadMatchesCI ps l := by
  induction ps with
  | nil => intro l rest _; rfl
  | cons p ps ih =>
    intro l rest h
    cases l with
    | nil => simp at h
    | cons c l2 =>
      simp only [List.cons_append, leadMatchesCI]
      congr 1
      exact ih l2 rest (by simpa using h)

theorem takeWhile_append_stop {p : Char → Bool} :
    ∀ (a : List Char) (c : Char) (b : List Char),
      (∀ x ∈ a, p x = true) → p c = false →
      (a ++ c :: b).takeWhile p = a ∧ (a ++ c :: b).dropWhile p = c :: b := by
  intro a
  induction a with
  | nil =>
    intro c b _ hc
    constructor
    · simp [List.takeWhile_cons, hc]
    · simp [List.dropWhile_cons, hc]
  | cons x xs ih =>
    intro c b ha hc
    have hx : p x = true := ha x (List.mem_cons_self _ _)
    have hr := ih c b (fun y hy => ha y (List.mem_cons_of_mem _ hy)) hc
    constructor
    · simp [List.takeWhile_cons, hx, hr.1]
    · simp [List.dropWhile_cons, hx, hr.2]

theorem matchAssignAt_patC9 (post : List Char) :
    matchAssignAt (patC9.toList ++ post) = some (patC9, post) := by
  unfold matchAssignAt
  have h1 : leadMatchesCI "[assignment:".toList (patC9.toList ++ post) = true := by
    rw [leadMatchesCI_append _ _ _ (by decide)]
    decide
  rw [h1]
  simp only [if_true]
  have hdrop : (patC9.toList ++ post).drop 12 = bodyC9 ++ (']' :: post) := by
    rw [List.drop_append_of_le_length (by decide)]
    rw [show patC9.toList.drop 12 = bodyC9 ++ [']'] from by decide]
    simp
  rw [hdrop]
  have hstop := takeWhile_append_stop bodyC9 ']' post
    (by decide : ∀ x ∈ bodyC9, (!(x == ']')) = true) (by decide)
  rw [hstop.1]
  rw [show bodyC9.isEmpty = false from by decide]
  simp only [Bool.false_eq_true, if_false]
  rw [List.drop_left]
  have htake : (patC9.toList ++ post).take (12 + bodyC9.length + 1) = patC9.toList := by
    rw [show 12 + bodyC9.length + 1 = patC9.toList.length from by decide]
    exact List.take_left _ _
  rw [htake]
  rfl

theorem dedupFirstSeen_cons (x : String) (xs : List String) :
    dedupFirstSeen (x :: xs) = x :: dedupSeen [x] xs := by
  unfold dedupFirstSeen
  simp only [dedupSeen]
  rw [show ([] : List String).contains x = false from rfl]
  simp

theorem scanAssignsAux_cons_match {fuel : Nat} {c : Char} {cs : List Char}
    {m : String} {r : List Char}
    (h : matchAssignAt (c :: cs) = some (m, r)) :
    scanAssignsAux (fuel + 1) (c :: cs) = m :: scanAssignsAux fuel r := by
  simp only [scanAssignsAux, h]

theorem scanAssignsAux_skip :
    ∀ (pre : List Char) (fuel : Nat) (rest : List Char),
      pre.all (fun c => !('[' == c.toLower)) = true →
      scanAssignsAux (pre.length + fuel) (pre ++ rest) = scanAssignsAux fuel rest := by
  intro pre
  induction pre with
  | nil => intro fuel rest _; simp
  | cons c pre2 ih =>
    intro fuel rest hall
    simp only [List.all_cons, Bool.and_eq_true, Bool.not_eq_true'] at hall
    have hm : matchAssignAt (c :: (pre2 ++ rest)) = none := by
      unfold matchAssignAt
      have hl : leadMatchesCI "[assignment:".toList (c :: (pre2 ++ rest)) = false := by
        rw [show "[assignment:".toList = '[' :: "assignment:".toList from rfl]
        simp only [leadMatchesCI, hall.1, Bool.false_and]
      rw [hl]
      simp
    have hlen : (c :: pre2).length + fuel = (pre2.length + fuel) + 1 := by
      simp only [List.length_cons]
      omega
    rw [hlen, List.cons_append]
    simp only [scanAssignsAux, hm]
    exact ih fuel rest hall.2

/-- C9 (amended): for a field in which the placeholder occurs with no
earlier `[` opener before it, the scan derives exactly the placeholder as
its first match, with topic `"frequency"` and category `cadence`; the topic
and category derivations on the placeholder itself are as claimed.  (When an
earlier unterminated `[Assignment:` opener precedes the placeholder, the
match of the scan absorbs it and the derived topic is larger than `"frequency"`,
though the category is still `cadence`.) -/
theorem C9_assignment_topic_frequency_cadence :
    (∀ (pre post : List Char),
       pre.all (fun c => !('[' == c.toLower)) = true →
       (assignmentRowsOf (String.mk (pre ++ patC9.toList ++ post))).head? =
         some (patC9, "frequency", "cadence")) ∧
    parseAssignmentTopic patC9 = "frequency" ∧
    categorizeTopic "frequency" = "cadence" ∧
    normalizeAssignment patC9 = patC9 := by
  refine ⟨?_, by decide, by decide, by decide⟩
  intro pre post hall
  have hassoc : pre ++ patC9.toList ++ post = pre ++ (patC9.toList ++ post) :=
    List.append_assoc _ _ _
  have hfind : findAssignments (String.mk (pre ++ patC9.toList ++ post)) =
      patC9 :: scanAssignsAux (44 + post.length) post := by
    unfold findAssignments findAssignmentsL
    rw [show (String.mk (pre ++ patC9.toList ++ post)).toList
          = pre ++ (patC9.toList ++ post) from hassoc]
    have hlen : (pre ++ (patC9.toList ++ post)).length + 1 =
        pre.length + (44 + post.length + 1) := by
      simp only [List.length_append,
        show patC9.toList.length = 44 from by decide]
      omega
    rw [hlen, scanAssignsAux_skip pre _ _ hall]
    have hsplit : patC9.toList ++ post =
        '[' :: ("Assignment: organization-defined frequency]".toList ++ post) := by
      rw [show patC9.toList
            = '[' :: "Assignment: organization-defined frequency]".toList from rfl]
      rfl
    rw [hsplit]
    rw [scanAssignsAux_cons_match (by rw [← hsplit]; exact matchAssignAt_patC9 post)]
  unfold assignmentRowsOf
  rw [hfind, List.map_cons, show normalizeAssignment patC9 = patC9 from by decide,
    dedupFirstSeen_cons, List.map_cons, List.head?_cons]
  decide

/-- C9 witness: the amended theorem at a concrete field with prose before
and after the placeholder. -/
theorem C9_assignment_topic_frequency_cadence_witness :
    (assignmentRowsOf (String.mk ("Accounts are reviewed ".toList ++ patC9.toList ++
       " thereafter.".toList))).head? = some (patC9, "frequency", "cadence") :=
  C9_assignment_topic_frequency_cadence.1 "Accounts are reviewed ".toList
    " thereafter.".toList (by decide)

theorem foldl_jsMapSet_fresh {β : Type} :
    ∀ (pairs acc : List (String × β)),
      (∀ k ∈ pairs.map Prod.fst, acc.any (fun p => p.1 == k) = false) →
      (pairs.map Prod.fst).Nodup →
      pairs.foldl (fun m p => jsMapSet m p.1 p.2) acc = acc ++ pairs := by
  intro pairs
  induction pairs with
  | nil => intro acc _ _; simp
  | cons kv ps ih =>
    intro acc hfresh hnodup
    simp only [List.foldl_cons]
    have hkv : acc.any (fun p => p.1 == kv.1) = false :=
      hfresh kv.1 (by simp)
    have hset : jsMapSet acc kv.1 kv.2 = acc ++ [kv] := by
      unfold jsMapSet
      rw [hkv]
      simp
    rw [hset]
    simp only [List.map_cons, List.nodup_cons] at hnodup
    have hfresh2 : ∀ k ∈ ps.map Prod.fst,
        (acc ++ [kv]).any (fun p => p.1 == k) = false := by
      intro k hk
      rw [List.any_append]
      simp only [Bool.or_eq_false_iff]
      refine ⟨hfresh k (List.mem_cons_of_mem _ hk), ?_⟩
      simp only [List.any_cons, List.any_nil, Bool.or_false]
      have hne : kv.1 ≠ k := fun he => hnodup.1 (he ▸ hk)
      simp [hne]
    rw [ih (acc ++ [kv]) hfresh2 hnodup.2]
    simp

theorem ctrlWritesOf_cons (e : WriteEvent) (tail : List WriteEvent) :
    ctrlWritesOf (e :: tail) =
      (match e with
       | WriteEvent.ctrlFile id r => [(id, r)]
       | _ => []) ++ ctrlWritesOf tail := by
  cases e <;> simp [ctrlWritesOf, List.filterMap_cons]

theorem indexEntriesOf_cons (e : WriteEvent) (tail : List WriteEvent) :
    indexEntriesOf (e :: tail) =
      (match e with
       | WriteEvent.indexFile l => l
       | _ => []) ++ indexEntriesOf tail := by
  cases e <;> simp [indexEntriesOf]

theorem ctrlWritesOf_ctrlmap (records : List ControlRecord) (tail : List WriteEvent) :
    ctrlWritesOf (records.map (fun r => WriteEvent.ctrlFile r.control_id r) ++ tail) =
      records.map (fun r => (r.control_id, r)) ++ ctrlWritesOf tail := by
  induction records with
  | nil => simp
  | cons r rs ih =>
    simp only [List.map_cons, List.cons_append, ctrlWritesOf_cons]
    rw [ih]
    simp

theorem indexEntriesOf_ctrlmap (records : List ControlRecord) (tail : List WriteEvent) :
    indexEntriesOf (records.map (fun r => WriteEvent.ctrlFile r.control_id r) ++ tail) =
      indexEntriesOf tail := by
  induction records with
  | nil => simp
  | cons r rs ih =>
    simp only [List.map_cons, List.cons_append, indexEntriesOf_cons]
    rw [ih]
    simp

/-- C3: on every successful extraction run (PDF or HTML path) over controls
with pairwise-distinct ids, the written index and control files are
mutually consistent — id, name and family of each index entry match a
written record, the id of each written record appears in the index — and every
control file write precedes the index write. -/
theorem C3_index_matches_records :
    (∀ (allLines : List String) (events : List WriteEvent),
       pdfExtract allLines = Except.ok events →
       ((splitControls allLines).map RawControl.control_id).Nodup →
       IndexRecordConsistent events) ∧
    (∀ (controls : List ControlRecord) (events : List WriteEvent),
       htmlRun controls = Except.ok events →
       (controls.map ControlRecord.control_id).Nodup →
       IndexRecordConsistent events) := by
  constructor
  · intro allLines events hok hnodup
    simp only [pdfExtract] at hok
    split at hok
    · exact absurd hok (by simp)
    · simp only [Except.ok.injEq] at hok
      subst hok
      have hrecid : ((splitControls allLines).map assembleRecord).map
          ControlRecord.control_id = (splitControls allLines).map RawControl.control_id := by
        rw [List.map_map]
        rfl
      have hkeys : (((splitControls allLines).map assembleRecord).map
          (fun r => (r.control_id, pdfIndexEntryOf r))).map Prod.fst =
          ((splitControls allLines).map assembleRecord).map ControlRecord.control_id := by
        rw [List.map_map]
        rfl
      have hfold : (((splitControls allLines).map assembleRecord).map
            (fun r => (r.control_id, pdfIndexEntryOf r))).foldl
            (fun m p => jsMapSet m p.1 p.2) [] =
          ((splitControls allLines).map assembleRecord).map
            (fun r => (r.control_id, pdfIndexEntryOf r)) := by
        rw [foldl_jsMapSet_fresh _ [] (by intro k _; simp)
          (by rw [hkeys, hrecid]; exact hnodup)]
        simp
      have hidx : (((splitControls allLines).map assembleRecord).map
            (fun r => (r.control_id, pdfIndexEntryOf r))).map Prod.snd =
          ((splitControls allLines).map assembleRecord).map pdfIndexEntryOf := by
        rw [List.map_map]
        rfl
      rw [hfold, hidx]
      have hie : ∀ idx : List ControlIndexItem,
          indexEntriesOf (WriteEvent.mkdirEv ::
            ((splitControls allLines).map assembleRecord).map
              (fun r => WriteEvent.ctrlFile r.control_id r) ++ [WriteEvent.indexFile idx]) =
            idx := by
        intro idx
        rw [show (WriteEvent.mkdirEv ::
            ((splitControls allLines).map assembleRecord).map
              (fun r => WriteEvent.ctrlFile r.control_id r) ++ [WriteEvent.indexFile idx]) =
          WriteEvent.mkdirEv ::
            (((splitControls allLines).map assembleRecord).map
              (fun r => WriteEvent.ctrlFile r.control_id r) ++ [WriteEvent.indexFile idx]) from rfl]
        rw [indexEntriesOf_cons, indexEntriesOf_ctrlmap]
        simp [indexEntriesOf]
      have hcw : ∀ idx : List ControlIndexItem,
          ctrlWritesOf (WriteEvent.mkdirEv ::
            ((splitControls allLines).map assembleRecord).map
              (fun r => WriteEvent.ctrlFile r.control_id r) ++ [WriteEvent.indexFile idx]) =
            ((splitControls allLines).map assembleRecord).map
              (fun r => (r.control_id, r)) := by
        intro idx
        rw [show (WriteEvent.mkdirEv ::
            ((splitControls allLines).map assembleRecord).map
              (fun r => WriteEvent.ctrlFile r.control_id r) ++ [WriteEvent.indexFile idx]) =
          WriteEvent.mkdirEv ::
            (((splitControls allLines).map assembleRecord).map
              (fun r => WriteEvent.ctrlFile r.control_id r) ++ [WriteEvent.indexFile idx]) from rfl]
        rw [ctrlWritesOf_cons, ctrlWritesOf_ctrlmap]
        simp [ctrlWritesOf]
      refine ⟨?_, ?_, ?_⟩
      · intro e he
        rw [hie] at he
        obtain ⟨r, hr, hre⟩ := List.mem_map.mp he
        subst hre
        refine ⟨(r.control_id, r), ?_, rfl, rfl, rfl⟩
        rw [hcw]
        exact List.mem_map_of_mem _ hr
      · intro p hp
        rw [hcw] at hp
        obtain ⟨r, hr, hrp⟩ := List.mem_map.mp hp
        subst hrp
        refine ⟨pdfIndexEntryOf r, ?_, rfl⟩
        rw [hie]
        exact List.mem_map_of_mem _ hr
      · refine ⟨((splitControls allLines).map assembleRecord).length + 1, ?_, ?_⟩
        · intro ev hev
          have hlen : ((splitControls allLines).map assembleRecord).length + 1 =
              (WriteEvent.mkdirEv ::
                ((splitControls allLines).map assembleRecord).map
                  (fun r => WriteEvent.ctrlFile r.control_id r)).length := by
            simp
          rw [hlen, List.take_left] at hev
          rcases List.mem_cons.mp hev with h1 | h2
          · subst h1; rfl
          · obtain ⟨r, _, hr⟩ := List.mem_map.mp h2
            rw [← hr]
            rfl
        · intro ev hev
          have hlen : ((splitControls allLines).map assembleRecord).length + 1 =
              (WriteEvent.mkdirEv ::
                ((splitControls allLines).map assembleRecord).map
                  (fun r => WriteEvent.ctrlFile r.control_id r)).length := by
            simp
          rw [hlen, List.drop_left] at hev
          simp only [List.mem_singleton] at hev
          subst hev
          rfl
  · intro controls events hok _hnodup
    simp only [htmlRun] at hok
    split at hok
    · exact absurd hok (by simp)
    · simp only [Except.ok.injEq] at hok
      subst hok
      have hie : indexEntriesOf (WriteEvent.mkdirEv ::
          controls.map (fun c => WriteEvent.ctrlFile c.control_id c) ++
          [WriteEvent.indexFile (controls.map htmlIndexEntryOf),
           WriteEvent.metadataFile]) = controls.map htmlIndexEntryOf := by
        rw [show (WriteEvent.mkdirEv ::
            controls.map (fun c => WriteEvent.ctrlFile c.control_id c) ++
            [WriteEvent.indexFile (controls.map htmlIndexEntryOf),
             WriteEvent.metadataFile]) =
          WriteEvent.mkdirEv ::
            (controls.map (fun c => WriteEvent.ctrlFile c.control_id c) ++
            [WriteEvent.indexFile (controls.map htmlIndexEntryOf),
             WriteEvent.metadataFile]) from rfl]
        rw [indexEntriesOf_cons, indexEntriesOf_ctrlmap]
        simp [indexEntriesOf]
      have hcw : ctrlWritesOf (WriteEvent.mkdirEv ::
          controls.map (fun c => WriteEvent.ctrlFile c.control_id c) ++
          [WriteEvent.indexFile (controls.map htmlIndexEntryOf),
           WriteEvent.metadataFile]) =
          controls.map (fun c => (c.control_id, c)) := by
        rw [show (WriteEvent.mkdirEv ::
            controls.map (fun c => WriteEvent.ctrlFile c.control_id c) ++
            [WriteEvent.indexFile (controls.map htmlIndexEntryOf),
             WriteEvent.metadataFile]) =
          WriteEvent.mkdirEv ::
            (controls.map (fun c => WriteEvent.ctrlFile c.control_id c) ++
            [WriteEvent.indexFile (controls.map htmlIndexEntryOf),
             WriteEvent.metadataFile]) from rfl]
        rw [ctrlWritesOf_cons, ctrlWritesOf_ctrlmap]
        simp [ctrlWritesOf]
      refine ⟨?_, ?_, ?_⟩
      · intro e he
        rw [hie] at he
        obtain ⟨c, hc, hce⟩ := List.mem_map.mp he
        subst hce
        refine ⟨(c.control_id, c), ?_, rfl, rfl, rfl⟩
        rw [hcw]
        exact List.mem_map_of_mem _ hc
      · intro p hp
        rw [hcw] at hp
        obtain ⟨c, hc, hcp⟩ := List.mem_map.mp hp
        subst hcp
        refine ⟨htmlIndexEntryOf c, ?_, rfl⟩
        rw [hie]
        exact List.mem_map_of_mem _ hc
      · refine ⟨controls.length + 1, ?_, ?_⟩
        · intro ev hev
          have hlen : controls.length + 1 =
              (WriteEvent.mkdirEv ::
                controls.map (fun c => WriteEvent.ctrlFile c.control_id c)).length := by
            simp
          rw [hlen, List.take_left] at hev
          rcases List.mem_cons.mp hev with h1 | h2
          · subst h1; rfl
          · obtain ⟨c, _, hc⟩ := List.mem_map.mp h2
            rw [← hc]
            rfl
        · intro ev hev
          have hlen : controls.length + 1 =
              (WriteEvent.mkdirEv ::
                controls.map (fun c => WriteEvent.ctrlFile c.control_id c)).length := by
            simp
          rw [hlen, List.drop_left] at hev
          rcases List.mem_cons.mp hev with h1 | h2
          · subst h1; rfl
          · simp only [List.mem_singleton] at h2
            subst h2
            rfl

/-- C3 witness: the consistency of the trace of a one-control PDF run. -/
theorem C3_index_matches_records_witness :
    IndexRecordConsistent
      [WriteEvent.mkdirEv, WriteEvent.ctrlFile "AC-1" c3Rec,
       WriteEvent.indexFile [c3Entry]] :=
  C3_index_matches_records.1 ["3. Security Control Definitions", "AC-1 POLICY"]
    [WriteEvent.mkdirEv, WriteEvent.ctrlFile "AC-1" c3Rec,
     WriteEvent.indexFile [c3Entry]]
    (by rfl) (by decide)

theorem jsMapGet_mem {β : Type} {pairs : List (String × β)} {k : String} {v : β}
    (h : jsMapGet pairs k = some v) : v ∈ pairs.map Prod.snd := by
  unfold jsMapGet at h
  cases hf : pairs.reverse.find? (fun p => p.1 == k) with
  | none => rw [hf] at h; simp at h
  | some p =>
    rw [hf] at h
    simp only [Option.some.injEq] at h
    subst h
    have hmem := List.mem_of_find?_eq_some hf
    rw [List.mem_reverse] at hmem
    exact List.mem_map_of_mem _ hmem

theorem addChosen_cases (canonical : List (String × String)) (chosen : List String)
    (id x : String) (h : x ∈ addChosen canonical chosen id) :
    x ∈ chosen ∨ x ∈ canonical.map Prod.snd := by
  unfold addChosen at h
  cases hg : jsMapGet canonical (normalizeControlIdRag id) with
  | none => simp only [hg] at h; exact Or.inl h
  | some cid =>
    simp only [hg] at h
    by_cases hc : chosen.contains cid = true
    · rw [if_pos hc] at h
      exact Or.inl h
    · rw [if_neg hc] at h
      rcases List.mem_append.mp h with h1 | h2
      · exact Or.inl h1
      · simp only [List.mem_singleton] at h2
        subst h2
        exact Or.inr (jsMapGet_mem hg)

theorem foldl_addChosen_mem (canonical : List (String × String)) :
    ∀ (ids chosen : List String) (x : String),
      x ∈ ids.foldl (addChosen canonical) chosen →
      x ∈ chosen ∨ x ∈ canonical.map Prod.snd := by
  intro ids
  induction ids with
  | nil => intro chosen x h; exact Or.inl h
  | cons i is ih =>
    intro chosen x h
    simp only [List.foldl_cons] at h
    rcases ih _ x h with h1 | h2
    · exact addChosen_cases _ _ _ _ h1
    · exact Or.inr h2

theorem addChosen_nodup (canonical : List (String × String)) (chosen : List String)
    (id : String) (h : chosen.Nodup) : (addChosen canonical chosen id).Nodup := by
  unfold addChosen
  cases hg : jsMapGet canonical (normalizeControlIdRag id) with
  | none => simp only [hg]; exact h
  | some cid =>
    simp only [hg]
    by_cases hc : chosen.contains cid = true
    · rw [if_pos hc]
      exact h
    · rw [if_neg hc]
      refine List.nodup_append.mpr ⟨h, List.nodup_singleton _, ?_⟩
      intro a ha hb
      simp only [List.mem_singleton] at hb
      subst hb
      exact hc (by simpa [List.contains] using (List.elem_iff.mpr ha))

theorem foldl_addChosen_nodup (canonical : List (String × String)) :
    ∀ (ids chosen : List String), chosen.Nodup →
      (ids.foldl (addChosen canonical) chosen).Nodup := by
  intro ids
  induction ids with
  | nil => intro chosen h; exact h
  | cons i is ih =>
    intro chosen h
    simp only [List.foldl_cons]
    exact ih _ (addChosen_nodup _ _ _ h)

theorem canonicalPairs_snd (index : List ControlIndexItem) :
    (canonicalPairs index).map Prod.snd = index.map ControlIndexItem.control_id := by
  unfold canonicalPairs
  rw [List.map_map]
  rfl

theorem phaseA_nodup (controlIds : Option (List String))
    (index : List ControlIndexItem) : (phaseA controlIds index).Nodup := by
  unfold phaseA
  cases controlIds with
  | none => simp
  | some ids =>
    simp only
    by_cases hi : ids.isEmpty = true
    · rw [if_pos hi]
      simp
    · rw [if_neg hi]
      exact foldl_addChosen_nodup _ ids [] (by simp)

theorem phaseA_mem (controlIds : Option (List String))
    (index : List ControlIndexItem) (x : String) (h : x ∈ phaseA controlIds index) :
    x ∈ index.map ControlIndexItem.control_id := by
  unfold phaseA at h
  cases controlIds with
  | none => simp at h
  | some ids =>
    simp only at h
    by_cases hi : ids.isEmpty = true
    · rw [if_pos hi] at h
      simp at h
    · rw [if_neg hi] at h
      rcases foldl_addChosen_mem _ ids [] x h with h1 | h2
      · simp at h1
      · rw [canonicalPairs_snd] at h2
        exact h2

theorem phaseB_nodup (question : String) (index : List ControlIndexItem) :
    (phaseB question index).Nodup :=
  foldl_addChosen_nodup _ _ [] (by simp)

theorem phaseB_mem (question : String) (index : List ControlIndexItem) (x : String)
    (h : x ∈ phaseB question index) : x ∈ index.map ControlIndexItem.control_id := by
  rcases foldl_addChosen_mem _ _ [] x h with h1 | h2
  · simp at h1
  · rw [canonicalPairs_snd] at h2
    exact h2

theorem phaseC_facts (question : String) (index : List ControlIndexItem)
    (limit : Nat) (hids : (index.map ControlIndexItem.control_id).Nodup) :
    (phaseC question index limit).Nodup ∧
    (phaseC question index limit).length ≤ limit ∧
    ∀ id ∈ phaseC question index limit,
      ∃ item ∈ index, item.control_id = id ∧
        0 < scoreControl question (tokenize question) item := by
  have hpw : index.Pairwise (fun a b => a.control_id ≠ b.control_id) :=
    List.pairwise_map.mp hids
  have hpairs : (index.map (fun item =>
      (item, scoreControl question (tokenize question) item))).Pairwise
      (fun p q => p.1.control_id ≠ q.1.control_id) :=
    List.pairwise_map.mpr hpw
  have hfilter : ((index.map (fun item =>
      (item, scoreControl question (tokenize question) item))).filter
      (fun p => decide (0 < p.2))).Pairwise
      (fun p q => p.1.control_id ≠ q.1.control_id) :=
    List.Pairwise.sublist (List.filter_sublist _) hpairs
  have hperm : (((index.map (fun item =>
        (item, scoreControl question (tokenize question) item))).filter
        (fun p => decide (0 < p.2))).mergeSort (fun a b => decide (b.2 ≤ a.2))).Perm
      ((index.map (fun item =>
        (item, scoreControl question (tokenize question) item))).filter
        (fun p => decide (0 < p.2))) :=
    List.mergeSort_perm _ _
  have hsorted : (((index.map (fun item =>
        (item, scoreControl question (tokenize question) item))).filter
        (fun p => decide (0 < p.2))).mergeSort (fun a b => decide (b.2 ≤ a.2))).Pairwise
      (fun p q => p.1.control_id ≠ q.1.control_id) :=
    (List.Perm.pairwise_iff (fun h => Ne.symm h) hperm).mpr hfilter
  have htake := List.Pairwise.sublist (List.take_sublist limit _) hsorted
  refine ⟨?_, ?_, ?_⟩
  · unfold phaseC
    exact List.pairwise_map.mpr htake
  · unfold phaseC
    rw [List.length_map, List.length_take]
    exact min_le_left _ _
  · intro id hid
    unfold phaseC at hid
    obtain ⟨p, hp, hpid⟩ := List.mem_map.mp hid
    have hp2 := List.mem_of_mem_take hp
    have hp3 := hperm.subset hp2
    have hppos := List.of_mem_filter hp3
    have hp4 := List.mem_of_mem_filter hp3
    obtain ⟨item, hitem, hpit⟩ := List.mem_map.mp hp4
    refine ⟨item, hitem, ?_, ?_⟩
    · rw [← hpid, ← hpit]
    · have hpos := of_decide_eq_true hppos
      rw [← hpit] at hpos
      exact hpos

/-- C10: for every question, optional caller id list and index with
pairwise-distinct control ids, `selectControlIds` returns a duplicate-free
list whose every element is the `control_id` of some index entry (unknown
ids are never selected); and when both the caller-id phase and the
embedded-id phase select nothing, the lexical fallback contributes at most
`limit` ids (the default in the source is 6), each belonging to an index entry
with strictly positive score. -/
theorem C10_selectControlIds_invariants
    (question : String) (controlIds : Option (List String))
    (index : List ControlIndexItem) (limit : Nat)
    (hids : (index.map ControlIndexItem.control_id).Nodup) :
    (selectControlIds question controlIds index limit).Nodup ∧
    (∀ id ∈ selectControlIds question controlIds index limit,
       id ∈ index.map ControlIndexItem.control_id) ∧
    (phaseA controlIds index = [] → phaseB question index = [] →
       (selectControlIds question controlIds index limit).length ≤ limit ∧
       ∀ id ∈ selectControlIds question controlIds index limit,
         ∃ item ∈ index, item.control_id = id ∧
           0 < scoreControl question (tokenize question) item) := by
  by_cases ha : (phaseA controlIds index).isEmpty = true
  · by_cases hb : (phaseB question index).isEmpty = true
    · have hres : selectControlIds question controlIds index limit =
          phaseC question index limit := by
        simp only [selectControlIds, ha, hb]
        simp
      rw [hres]
      have hc := phaseC_facts question index limit hids
      refine ⟨hc.1, ?_, fun _ _ => ⟨hc.2.1, hc.2.2⟩⟩
      intro id hid
      obtain ⟨item, hitem, hiid, _⟩ := hc.2.2 id hid
      rw [← hiid]
      exact List.mem_map_of_mem _ hitem
    · have hres : selectControlIds question controlIds index limit =
          phaseB question index := by
        simp only [selectControlIds, ha, hb]
        simp
      rw [hres]
      refine ⟨phaseB_nodup _ _, fun id hid => phaseB_mem _ _ id hid, ?_⟩
      intro _ hB
      rw [hB] at hb
      simp at hb
  · have hres : selectControlIds question controlIds index limit =
        phaseA controlIds index := by
      simp only [selectControlIds, ha]
      simp
    rw [hres]
    refine ⟨phaseA_nodup _ _, fun id hid => phaseA_mem _ _ id hid, ?_⟩
    intro hA _
    rw [hA] at ha
    simp at ha

/-- C10 witness: the invariants at a concrete question and index. -/
theorem C10_selectControlIds_invariants_witness :
    (selectControlIds "how are accounts managed" none c2Index 6).Nodup ∧
    (∀ id ∈ selectControlIds "how are accounts managed" none c2Index 6,
       id ∈ c2Index.map ControlIndexItem.control_id) ∧
    (phaseA none c2Index = [] → phaseB "how are accounts managed" c2Index = [] →
       (selectControlIds "how are accounts managed" none c2Index 6).length ≤ 6 ∧
       ∀ id ∈ selectControlIds "how are accounts managed" none c2Index 6,
         ∃ item ∈ c2Index, item.control_id = id ∧
           0 < scoreControl "how are accounts managed"
             (tokenize "how are accounts managed") item) :=
  C10_selectControlIds_invariants "how are accounts managed" none c2Index 6 (by decide)

/-- C6 witness: the amended behaviour on a concrete marker line with colon
text and a concrete follow-up line in guidance mode. -/
theorem C6_guidance_mode_on_colon_text_witness :
    enhStep "AC-2"
      ([], some { enhancement_id := "AC-2(1)", title := some "Title",
                  statement := "", supplemental_guidance := none })
      "Enhancement Supplemental Guidance: Real guidance." =
      ([], some { enhancement_id := "AC-2(1)", title := some "Title",
                  statement := "",
                  supplemental_guidance := some "Real guidance." }) := by
  have h := C6_guidance_mode_on_colon_text.1 "AC-2" []
    { enhancement_id := "AC-2(1)", title := some "Title",
      statement := "", supplemental_guidance := none }
    "Enhancement Supplemental Guidance: Real guidance." (by decide) (by decide)
  rw [h]
  decide

end ITSG33
